import Mathlib

/-!
cppitertools: bounded advance, dereference holders and the Slice view

A shallow embedding of `src/iterbase.hpp` (the `dumb_advance` family,
`dumb_next`, `dumb_size`, `DerefHolder`) and `src/slice.hpp` (class `Slice`,
its `Iterator`, and the `slice` helpers).

Modelling conventions.

* A container is a `List α`; an iterator of the container is its position, an
  `Int`. `std::begin` is position `0`, `std::end` is position `length`.
  `++iter` adds one, `iter += d` adds `d`, `end - iter` subtracts, and `*iter`
  reads the element at the position when the position lies in
  `[0, length)` (any other position has no element to read). Positions and
  their differences (`std::ptrdiff_t`) are not bounded.
* `DifferenceType` / `Distance` of the Slice view and of the bounded advance is
  a signed integer type of `bits` bits, with values in
  `[-2^(bits-1), 2^(bits-1))`. A conversion to it
  (`static_cast<Distance>(end - iter)`) and the result of `current += step`
  are reduced modulo `2^bits` into that range (`wrap`): for a type narrower
  than `int` this is the conversion back from the promoted `int`; for `int`
  and wider types it is what two's complement arithmetic computes.
* The iterator category (`is_random_access_iter<Iter>`) is a `Bool`:
  `true` selects the `std::true_type` overload of `dumb_advance_impl`,
  `false` the `std::false_type` overload.
* An unsigned `Distance` of `bits` bits (the counter of `dumb_size`) wraps
  modulo `2^bits`.
* Pointers are addresses into a `Store` of cells, `none` is `nullptr`;
  `std::make_unique` takes a fresh address and a `std::unique_ptr` that gives
  up a pointer destroys the object at it. Operations on a holder take the
  store and return the changed store.
-/

namespace iter

set_option maxRecDepth 20000

/-! ## The signed distance type -/

/-- Half the number of values of a signed type of `bits` bits: `2^(bits-1)`. -/
def half_range (bits : Nat) : Int :=
  ((2 ^ (bits - 1) : Nat) : Int)

/-- The value of the signed `bits`-bit type congruent to `x` modulo `2^bits`:
what a conversion to the type, or an arithmetic result stored in it, keeps. -/
def wrap (bits : Nat) (x : Int) : Int :=
  (x + half_range bits) % (2 * half_range bits) - half_range bits

/-- The integer `x` is a value of the signed `bits`-bit type. -/
@[reducible] def fits (bits : Nat) (x : Int) : Prop :=
  -half_range bits ≤ x ∧ x < half_range bits

/-! ## iterbase.hpp: bounded advance -/

/-- The loop of `dumb_advance_impl(iter, end, distance, std::false_type)`:
`for (Distance i(0); i < distance && iter != end; ++i) ++iter;`.
The first argument bounds the number of loop tests still to run. The counter
stays at most `distance`, so it never leaves the range of `Distance`. -/
def dumb_advance_loop : Nat → Int → Int → Int → Int → Int
  | 0, _, _, it, _ => it
  | fuel + 1, i, distance, it, end_ =>
    if i < distance ∧ it ≠ end_ then
      dumb_advance_loop fuel (i + 1) distance (it + 1) end_
    else it

/-- The forward-only overload `dumb_advance_impl(iter, end, distance, std::false_type)`.
The counter `i` runs from `0` upwards and the loop stops at the latest when
`i = distance`, so `distance.toNat` loop bodies always suffice
(see `dumb_advance_loop_fuel`). -/
def dumb_advance_impl_false (it end_ distance : Int) : Int :=
  dumb_advance_loop distance.toNat 0 distance it end_

/-- The random-access overload `dumb_advance_impl(iter, end, distance, std::true_type)`:
`if (static_cast<Distance>(end - iter) < distance) iter = end; else iter += distance;`
with `Distance` of `bits` bits. -/
def dumb_advance_impl_true (bits : Nat) (it end_ distance : Int) : Int :=
  if wrap bits (end_ - it) < distance then end_ else it + distance

/-- The bounded `dumb_advance(iter, end, distance)`, dispatching on the iterator category. -/
def dumb_advance (bits : Nat) (ra : Bool) (it end_ distance : Int) : Int :=
  if ra then dumb_advance_impl_true bits it end_ distance
  else dumb_advance_impl_false it end_ distance

/-! ## slice.hpp -/

/-- The data members of `Slice<Container, DifferenceType>`. -/
structure Slice (α : Type) where
  container : List α
  start : Int
  stop : Int
  step : Int
deriving DecidableEq, Repr

/-- The constructor `Slice::Slice(in_container, in_start, in_stop, in_step)`. -/
def Slice.ctor {α : Type} (in_container : List α) (in_start in_stop in_step : Int) : Slice α :=
  { container := in_container
    start := if in_start < in_stop ∧ in_step > 0 then in_start else in_stop
    stop := in_stop
    step := in_step }

/-- The data members of `Slice::Iterator`. -/
structure Iterator where
  sub_iter : Int
  sub_end : Int
  current : Int
  stop : Int
  step : Int
deriving DecidableEq, Repr

/-- The member `Iterator::operator++()`, with `DifferenceType` of `bits` bits:
`dumb_advance(sub_iter, sub_end, step); current += step;
if (stop < current) current = stop;`. -/
def Iterator.incr (bits : Nat) (ra : Bool) (self : Iterator) : Iterator :=
  let sub := dumb_advance bits ra self.sub_iter self.sub_end self.step
  let cur := wrap bits (self.current + self.step)
  { self with
    sub_iter := sub
    current := if self.stop < cur then self.stop else cur }

/-- The member `Iterator::operator!=`. -/
def Iterator.ne (self other : Iterator) : Bool :=
  self.sub_iter != other.sub_iter && self.current != other.current

/-- The member `Iterator::operator==`. -/
def Iterator.eq (self other : Iterator) : Bool :=
  !(self.ne other)

/-- The member `Slice::begin()`. -/
def Slice.begin {α : Type} (bits : Nat) (ra : Bool) (self : Slice α) : Iterator :=
  let it := dumb_advance bits ra 0 self.container.length self.start
  { sub_iter := it
    sub_end := self.container.length
    current := self.start
    stop := self.stop
    step := self.step }

/-- The member `Slice::end()`. -/
def Slice.end_ {α : Type} (self : Slice α) : Iterator :=
  { sub_iter := self.container.length
    sub_end := self.container.length
    current := self.stop
    stop := self.stop
    step := self.step }

/-- The helper `slice(container, start, stop, step)`. -/
def slice {α : Type} (container : List α) (start stop step : Int) : Slice α :=
  Slice.ctor container start stop step

/-- The helper `slice(container, stop)`: "assume step is 1 and begin is 0". -/
def slice_stop {α : Type} (container : List α) (stop : Int) : Slice α :=
  Slice.ctor container 0 stop 1

/-- The dereference `*this->sub_iter` of `Iterator::operator*`, on a container:
`some` of the element at the underlying position, `none` when the position
is not that of an element. -/
def deref {α : Type} (container : List α) (pos : Int) : Option α :=
  if 0 ≤ pos then container[pos.toNat]? else none

/-- `n` applications of `operator++`. -/
def Iterator.incrN (bits : Nat) (ra : Bool) : Nat → Iterator → Iterator
  | 0, it => it
  | n + 1, it => Iterator.incrN bits ra n (it.incr bits ra)

/-- The range-for loop `for (it = begin; it != end; ++it) visit(*it);`,
recording the underlying position of every dereference. The first argument
bounds the number of loop bodies; `none` when the bound is reached with the
iterator still unequal to `end`. -/
def rangeFor (bits : Nat) (ra : Bool) : Nat → Iterator → Iterator → Option (List Int)
  | 0, it, e => if it.ne e then none else some []
  | fuel + 1, it, e =>
    if it.ne e then (rangeFor bits ra fuel (it.incr bits ra) e).map (fun r => it.sub_iter :: r)
    else some []

/-- The positions dereferenced by iterating the view from `begin()` to `end()`.
With `step >= 1` every increment moves the underlying iterator forward or to
the true end, so the distance from `begin()` to the true end bounds the number
of loop bodies; with `step <= 0` there is none (see `Slice.trace_isSome`). -/
def Slice.trace {α : Type} (bits : Nat) (ra : Bool) (self : Slice α) : Option (List Int) :=
  rangeFor bits ra ((self.container.length : Int) - (self.begin bits ra).sub_iter).toNat
    (self.begin bits ra) self.end_

/-- The elements yielded by iterating the view from `begin()` to `end()`;
an entry `none` stands for a dereference outside the container. -/
def Slice.yields {α : Type} (bits : Nat) (ra : Bool) (self : Slice α) :
    Option (List (Option α)) :=
  (self.trace bits ra).map (fun ps => ps.map (deref self.container))

/-- The number of `operator++` applications before the iterator first compares
equal to `e`; `none` when the bound in the first argument is reached first. -/
def incrementsToEnd (bits : Nat) (ra : Bool) : Nat → Iterator → Iterator → Option Nat
  | 0, it, e => if it.ne e then none else some 0
  | fuel + 1, it, e =>
    if it.ne e then (incrementsToEnd bits ra fuel (it.incr bits ra) e).map (fun n => n + 1)
    else some 0

/-- The iterator states of one view that a loop over it compares: `end()` and
every state reached from `begin()` by increments. -/
def Slice.reachable {α : Type} (bits : Nat) (ra : Bool) (self : Slice α) (it : Iterator) : Prop :=
  it = self.end_ ∨ ∃ N : Nat, it = Iterator.incrN bits ra N (self.begin bits ra)

/-! ## iterbase.hpp: unbounded advance, dumb_next, dumb_size -/

/-- The loop of the unbounded `dumb_advance(iter, distance)`:
`for (Distance i(0); i < distance; ++i) ++iter;`. The last argument counts the
executions of `++iter`; the first bounds the number of loop tests still to run. -/
def dumb_advance_unbounded_loop : Nat → Int → Int → Int → Nat → Int × Nat
  | 0, _, _, it, n => (it, n)
  | fuel + 1, i, distance, it, n =>
    if i < distance then dumb_advance_unbounded_loop fuel (i + 1) distance (it + 1) (n + 1)
    else (it, n)

/-- The unbounded `dumb_advance(InputIt& iter, Distance distance)`: the new value
of the caller's iterator and the number of increments performed. The counter
runs from `0` to `distance`, so `distance.toNat` loop bodies always suffice
(see `dumb_advance_unbounded_loop_fuel`). -/
def dumb_advance_unbounded (it distance : Int) : Int × Nat :=
  dumb_advance_unbounded_loop distance.toNat 0 distance it 0

/-- The two-argument `dumb_next(ForwardIt it, Distance distance)`. The parameter
`it` is a copy of the caller's iterator: the first component is the returned
iterator, the second the caller's own iterator after the call. -/
def dumb_next (it distance : Int) : Int × Int :=
  ((dumb_advance_unbounded it distance).1, it)

/-- The loop of `dumb_size`: `for (it = begin, end = end; it != end; ++it) ++d;`
with `d` of an unsigned `Distance` type of `bits` bits. -/
def dumb_size_loop (bits : Nat) : Nat → Int → Int → Nat → Nat
  | 0, _, _, d => d
  | fuel + 1, it, end_, d =>
    if it ≠ end_ then dumb_size_loop bits fuel (it + 1) end_ ((d + 1) % 2 ^ bits)
    else d

/-- The function `dumb_size(container)` with `Distance` an unsigned type of
`bits` bits (`std::size_t` by default). The iterator runs from `begin` to `end`,
so `length` loop bodies always suffice (see `dumb_size_loop_fuel`). -/
def dumb_size {α : Type} (bits : Nat) (container : List α) : Nat :=
  dumb_size_loop bits container.length 0 container.length 0

/-! ## iterbase.hpp: DerefHolder -/

/-- The memory the holders point into: cell `a` is `some v` while an object of
value `v` lives at address `a`, and `none` once it has been destroyed.
Addresses at or beyond the length have not been handed out. -/
structure Store (α : Type) where
  cells : List (Option α)
deriving DecidableEq, Repr

/-- Reading through a pointer to address `a`: `none` when no object lives there. -/
def Store.read {α : Type} (m : Store α) (a : Nat) : Option α :=
  (m.cells[a]?).getD none

/-- The call `std::make_unique<TPlain>(v)`: a new object at a fresh address. -/
def Store.make_unique {α : Type} (m : Store α) (v : α) : Nat × Store α :=
  (m.cells.length, { cells := m.cells ++ [some v] })

/-- What a `std::unique_ptr` does with the pointer it gives up: the object is
destroyed; nothing happens for `nullptr`. -/
def Store.delete {α : Type} (m : Store α) (p : Option Nat) : Store α :=
  match p with
  | none => m
  | some a => { cells := m.cells.set a none }

/-- An assignment to the object living at address `a`. -/
def Store.write {α : Type} (m : Store α) (a : Nat) (v : α) : Store α :=
  if (m.read a).isSome then { cells := m.cells.set a (some v) } else m

/-- The primary template `DerefHolder<T>`: its member `std::unique_ptr<TPlain> item_p`,
`none` for `nullptr`. -/
structure DerefHolder where
  item_p : Option Nat
deriving DecidableEq, Repr

/-- The holder is empty or its pointer is that of a living object. -/
def DerefHolder.owns {α : Type} (self : DerefHolder) (m : Store α) : Bool :=
  match self.item_p with
  | none => true
  | some a => (m.read a).isSome

/-- The member `DerefHolder::get()`: `*this->item_p`; `none` when there is no object to refer to. -/
def DerefHolder.get {α : Type} (self : DerefHolder) (m : Store α) : Option α :=
  match self.item_p with
  | none => none
  | some a => m.read a

/-- The member `DerefHolder::get_ptr()`: `this->item_p.get()`. -/
def DerefHolder.get_ptr (self : DerefHolder) : Option Nat :=
  self.item_p

/-- The member `DerefHolder::reset(T&& item)`:
`item_p = std::make_unique<TPlain>(std::move(item));`. The new object is made
first; the assignment then destroys the object held before. -/
def DerefHolder.reset {α : Type} (self : DerefHolder) (m : Store α) (item : α) :
    DerefHolder × Store α :=
  let r := m.make_unique item
  ({ item_p := some r.1 }, r.2.delete self.item_p)

/-- The copy constructor `DerefHolder(const DerefHolder& other)`:
`item_p{other.item_p ? std::make_unique<TPlain>(*other.item_p) : nullptr}`.
`none` when `*other.item_p` has no object to read. -/
def DerefHolder.copy {α : Type} (other : DerefHolder) (m : Store α) :
    Option (DerefHolder × Store α) :=
  match other.item_p with
  | none => some ({ item_p := none }, m)
  | some a =>
    match m.read a with
    | none => none
    | some w =>
      let r := m.make_unique w
      some ({ item_p := some r.1 }, r.2)

/-- The copy assignment `DerefHolder::operator=(const DerefHolder& other)`:
the same expression assigned to `this->item_p`, which destroys the object held
before. -/
def DerefHolder.assign {α : Type} (self other : DerefHolder) (m : Store α) :
    Option (DerefHolder × Store α) :=
  match other.item_p with
  | none => some ({ item_p := none }, m.delete self.item_p)
  | some a =>
    match m.read a with
    | none => none
    | some w =>
      let r := m.make_unique w
      some ({ item_p := some r.1 }, r.2.delete self.item_p)

/-- The specialization `DerefHolder<T&>`: its member `pointer item_p{}`,
`none` for `nullptr`. -/
structure DerefHolderRef where
  item_p : Option Nat
deriving DecidableEq, Repr

/-- The member `get()` of `DerefHolder<T&>`: `*this->item_p`. -/
def DerefHolderRef.get {α : Type} (self : DerefHolderRef) (m : Store α) : Option α :=
  match self.item_p with
  | none => none
  | some a => m.read a

/-- The member `get_ptr()` of `DerefHolder<T&>`. -/
def DerefHolderRef.get_ptr (self : DerefHolderRef) : Option Nat :=
  self.item_p

/-- The member `reset(T item)` of `DerefHolder<T&>`: `this->item_p = &item;`,
with `item` a reference to the object at address `a`. -/
def DerefHolderRef.reset (_self : DerefHolderRef) (a : Nat) : DerefHolderRef :=
  { item_p := some a }

/-- The conversion `explicit operator bool()` of `DerefHolder<T&>`:
`this->item_p != nullptr`. -/
def DerefHolderRef.toBool (self : DerefHolderRef) : Bool :=
  self.item_p != none

/-- The rounded-up quotient `ceil(a / b)` for `b > 0`, as the bound on the number
of increments is worded. -/
def spec_ceil_div (a b : Int) : Int :=
  (a + b - 1) / b

/-! ## The signed distance type: auxiliary facts -/

theorem half_range_pos (bits : Nat) : 0 < half_range bits := by
  unfold half_range
  exact_mod_cast Nat.two_pow_pos (bits - 1)

theorem wrap_of_fits (bits : Nat) (x : Int) (h1 : -half_range bits ≤ x)
    (h2 : x < half_range bits) : wrap bits x = x := by
  unfold wrap
  rw [Int.emod_eq_of_lt (by omega) (by omega)]
  omega

theorem wrap_le_self (bits : Nat) (y : Int) (h : 0 ≤ y) : wrap bits y ≤ y := by
  unfold wrap
  have hp := half_range_pos bits
  have h1 : 0 ≤ (y + half_range bits) / (2 * half_range bits) :=
    Int.ediv_nonneg (by omega) (by omega)
  have h2 : 0 ≤ 2 * half_range bits * ((y + half_range bits) / (2 * half_range bits)) :=
    Int.mul_nonneg (by omega) h1
  rw [Int.emod_def]
  omega

theorem wrap_fits (bits : Nat) (x : Int) : fits bits (wrap bits x) := by
  unfold wrap
  have hp := half_range_pos bits
  have h1 := Int.emod_nonneg (x + half_range bits) (b := 2 * half_range bits) (by omega)
  have h2 := Int.emod_lt_of_pos (x + half_range bits) (b := 2 * half_range bits) (by omega)
  constructor <;> omega

/-! ## The bounded advance: auxiliary facts -/

theorem dumb_advance_loop_fuel (fuel : Nat) (i d p e : Int) (h : (d - i).toNat ≤ fuel) :
    dumb_advance_loop fuel i d p e = dumb_advance_loop (d - i).toNat i d p e := by
  induction fuel generalizing i p with
  | zero =>
    have h0 : (d - i).toNat = 0 := by omega
    rw [h0]
  | succ f ih =>
    by_cases hc : i < d
    · have h1 : (d - i).toNat = (d - (i + 1)).toNat + 1 := by omega
      rw [h1]
      simp only [dumb_advance_loop]
      by_cases hp : p ≠ e
      · rw [if_pos ⟨hc, hp⟩, if_pos ⟨hc, hp⟩]
        exact ih (i + 1) (p + 1) (by omega)
      · rw [if_neg (fun hh => hp hh.2), if_neg (fun hh => hp hh.2)]
    · have h0 : (d - i).toNat = 0 := by omega
      rw [h0]
      simp only [dumb_advance_loop]
      rw [if_neg (fun hh => hc hh.1)]

theorem dumb_advance_loop_eq (fuel : Nat) (i d p e : Int) (hpe : p ≤ e)
    (h : (d - i).toNat ≤ fuel) :
    dumb_advance_loop fuel i d p e = min (p + max (d - i) 0) e := by
  induction fuel generalizing i p with
  | zero =>
    simp only [dumb_advance_loop]
    omega
  | succ f ih =>
    simp only [dumb_advance_loop]
    by_cases hc : i < d ∧ p ≠ e
    · rw [if_pos hc, ih (i + 1) (p + 1) (by omega) (by omega)]
      omega
    · rw [if_neg hc]
      by_cases h1 : i < d
      · have : p = e := by
          by_contra hne
          exact hc ⟨h1, hne⟩
        omega
      · omega

theorem dumb_advance_impl_false_eq (p e d : Int) (hpe : p ≤ e) :
    dumb_advance_impl_false p e d = min (p + max d 0) e := by
  unfold dumb_advance_impl_false
  rw [dumb_advance_loop_eq _ 0 d p e hpe (by simp)]
  simp

/-- The random-access overload, whatever the width: the result is the end or
`p + d`, it is never beyond the end, and it is the end when `d` exceeds the
remaining distance. -/
theorem dumb_advance_impl_true_facts (bits : Nat) (p e d : Int) (hpe : p ≤ e) :
    (dumb_advance_impl_true bits p e d = e ∨ dumb_advance_impl_true bits p e d = p + d)
    ∧ dumb_advance_impl_true bits p e d ≤ e
    ∧ (e - p < d → dumb_advance_impl_true bits p e d = e) := by
  have hw := wrap_le_self bits (e - p) (by omega)
  unfold dumb_advance_impl_true
  by_cases hc : wrap bits (e - p) < d
  · rw [if_pos hc]
    exact ⟨Or.inl rfl, le_refl _, fun _ => rfl⟩
  · rw [if_neg hc]
    exact ⟨Or.inr rfl, by omega, fun h => by omega⟩

/-- The random-access overload where the remaining distance is a value of
`Distance`: the cast changes nothing. -/
theorem dumb_advance_impl_true_eq (bits : Nat) (p e d : Int) (hpe : p ≤ e)
    (hfit : e - p < half_range bits) :
    dumb_advance_impl_true bits p e d = min (p + d) e := by
  have hp := half_range_pos bits
  unfold dumb_advance_impl_true
  rw [wrap_of_fits bits (e - p) (by omega) hfit]
  split <;> omega

theorem dumb_advance_eq_min (bits : Nat) (ra : Bool) (p e d : Int) (hpe : p ≤ e) (hd : 0 ≤ d)
    (hfit : ra = true → e - p < half_range bits) :
    dumb_advance bits ra p e d = min (p + d) e := by
  unfold dumb_advance
  cases ra
  · simp only [Bool.false_eq_true, if_false]
    rw [dumb_advance_impl_false_eq p e d hpe]
    omega
  · simp only [if_true]
    exact dumb_advance_impl_true_eq bits p e d hpe (hfit rfl)

/-- One bounded advance by a positive distance from a position at or before
the end, on either category and whatever the width: the iterator lands on the
end or exactly `d` further, and not beyond the end. -/
theorem dumb_advance_step (bits : Nat) (ra : Bool) (p e d : Int) (hpe : p ≤ e) (hd : 0 ≤ d) :
    (dumb_advance bits ra p e d = e ∨ dumb_advance bits ra p e d = p + d)
    ∧ dumb_advance bits ra p e d ≤ e := by
  unfold dumb_advance
  cases ra
  · simp only [Bool.false_eq_true, if_false]
    rw [dumb_advance_impl_false_eq p e d hpe]
    omega
  · simp only [if_true]
    have h := dumb_advance_impl_true_facts bits p e d hpe
    exact ⟨h.1, h.2.1⟩

/-! ## Iterator states of a view: auxiliary facts -/

/-- The iterator state whose underlying position is `u` clamped at the true
end `len` and whose logical position is `x` clamped at `stop`. -/
def clampedState (len stop step u x : Int) : Iterator :=
  { sub_iter := min u len
    sub_end := len
    current := min x stop
    stop := stop
    step := step }

/-- An increment of a clamped state, where nothing leaves the range of the
distance type: on a random-access sequence the distance to the true end, and
`stop + step`. -/
theorem incr_clampedState (bits : Nat) (ra : Bool) (len stop step u x : Int) (hs : 0 ≤ step)
    (hra : ra = true → len - u < half_range bits) (hx : -half_range bits ≤ x)
    (hstop : -half_range bits ≤ stop) (hov : stop + step < half_range bits) :
    (clampedState len stop step u x).incr bits ra
      = clampedState len stop step (u + step) (x + step) := by
  have hp := half_range_pos bits
  unfold Iterator.incr clampedState
  simp only
  rw [dumb_advance_eq_min bits ra _ _ _ (min_le_right u len) hs
      (fun h => by have := hra h; omega),
    wrap_of_fits bits (min x stop + step) (by omega) (by omega)]
  congr 1
  · omega
  · split <;> omega

theorem ne_clampedState (len stop step u x c : Int) :
    (clampedState len stop step u x).ne
      { sub_iter := len, sub_end := len, current := stop, stop := stop, step := c } = true
      ↔ u < len ∧ x < stop := by
  unfold Iterator.ne clampedState
  simp only [Bool.and_eq_true, bne_iff_ne, ne_eq]
  omega

theorem Slice.ctor_start_le_stop {α : Type} (xs : List α) (start stop step : Int) :
    (Slice.ctor xs start stop step).start ≤ stop := by
  unfold Slice.ctor
  simp only
  split <;> omega

/-- The underlying position from which `begin()` starts, before clamping at the
true end: the view's start for a random-access container, and the view's start
or `0`, whichever is larger, for a forward-only one. -/
def beginOffset (ra : Bool) (s : Int) : Int :=
  if ra then s else max s 0

theorem begin_eq_clampedState {α : Type} (bits : Nat) (ra : Bool) (v : Slice α)
    (h : v.start ≤ v.stop) (hlen : ra = true → (v.container.length : Int) < half_range bits) :
    v.begin bits ra
      = clampedState v.container.length v.stop v.step (beginOffset ra v.start) v.start := by
  unfold Slice.begin clampedState beginOffset dumb_advance
  simp only
  congr 1
  · cases ra
    · simp only [Bool.false_eq_true, if_false]
      rw [dumb_advance_impl_false_eq _ _ _ (by omega)]
      omega
    · simp only [if_true]
      rw [dumb_advance_impl_true_eq bits _ _ _ (by omega) (by have := hlen rfl; omega)]
      omega
  · omega

theorem end_eq {α : Type} (v : Slice α) :
    v.end_ = { sub_iter := v.container.length, sub_end := v.container.length,
               current := v.stop, stop := v.stop, step := v.step } := rfl

theorem slice_end_eq {α : Type} (xs : List α) (start stop step : Int) :
    (slice xs start stop step).end_
      = { sub_iter := xs.length, sub_end := xs.length, current := stop, stop := stop,
          step := step } := rfl

theorem mul_step_nonneg (k : Nat) (step : Int) (hs : 0 ≤ step) : 0 ≤ (k : Int) * step :=
  Int.mul_nonneg (Int.ofNat_nonneg k) hs

theorem stride_range_succ (n : Nat) (u step : Int) :
    (List.range (n + 1)).map (fun k : Nat => u + (k : Int) * step)
      = u :: (List.range n).map (fun k : Nat => (u + step) + (k : Int) * step) := by
  rw [List.range_succ_eq_map, List.map_cons, List.map_map]
  congr 1
  · simp
  · apply List.map_congr_left
    intro k _
    simp only [Function.comp_apply, Nat.succ_eq_add_one, Nat.cast_add, Nat.cast_one]
    ring

/-- The range-for loop and the increment count from a clamped state, where
nothing leaves the range of the distance type: the loop runs exactly for the
`k` with `u + k*step < len` and `x + k*step < stop`. -/
theorem loop_clampedState (bits : Nat) (ra : Bool) (len stop step : Int) (hs : 0 < step)
    (hstop : -half_range bits ≤ stop) (hov : stop + step < half_range bits)
    (fuel : Nat) (u x : Int) (hra : ra = true → len - u < half_range bits)
    (hx : -half_range bits ≤ x)
    (hf : (len - u).toNat ≤ fuel ∨ (stop - x).toNat ≤ fuel) :
    ∃ n : Nat, (∀ k : Nat, k < n ↔ (u + (k : Int) * step < len ∧ x + (k : Int) * step < stop))
      ∧ rangeFor bits ra fuel (clampedState len stop step u x)
          { sub_iter := len, sub_end := len, current := stop, stop := stop, step := step }
        = some ((List.range n).map (fun k : Nat => u + (k : Int) * step))
      ∧ incrementsToEnd bits ra fuel (clampedState len stop step u x)
          { sub_iter := len, sub_end := len, current := stop, stop := stop, step := step }
        = some n := by
  induction fuel generalizing u x with
  | zero =>
    have hne : ¬ ((clampedState len stop step u x).ne
        { sub_iter := len, sub_end := len, current := stop, stop := stop, step := step } = true) := by
      rw [ne_clampedState]; omega
    refine ⟨0, ?_, ?_, ?_⟩
    · intro k
      have := mul_step_nonneg k step (le_of_lt hs)
      constructor
      · intro h; omega
      · intro h; omega
    · simp [rangeFor, hne]
    · simp [incrementsToEnd, hne]
  | succ f ih =>
    by_cases hc : u < len ∧ x < stop
    · obtain ⟨n, hn, hr, hi⟩ := ih (u + step) (x + step)
        (fun h => by have := hra h; omega) (by omega) (by omega)
      have hne : (clampedState len stop step u x).ne
          { sub_iter := len, sub_end := len, current := stop, stop := stop, step := step } = true := by
        rw [ne_clampedState]; exact hc
      have hincr := incr_clampedState bits ra len stop step u x (le_of_lt hs) hra hx hstop hov
      refine ⟨n + 1, ?_, ?_, ?_⟩
      · intro k
        cases k with
        | zero => simp; omega
        | succ j =>
          have e1 : u + ((j + 1 : Nat) : Int) * step = (u + step) + (j : Int) * step := by
            push_cast; ring
          have e2 : x + ((j + 1 : Nat) : Int) * step = (x + step) + (j : Int) * step := by
            push_cast; ring
          rw [e1, e2, ← hn j]
          omega
      · rw [stride_range_succ]
        simp only [rangeFor, hne, if_true]
        rw [hincr, hr]
        have hu2 : (clampedState len stop step u x).sub_iter = u := by
          unfold clampedState; simp only; omega
        simp [hu2]
      · simp only [incrementsToEnd, hne, if_true]
        rw [hincr, hi]
        simp
    · have hne : ¬ ((clampedState len stop step u x).ne
          { sub_iter := len, sub_end := len, current := stop, stop := stop, step := step } = true) := by
        rw [ne_clampedState]; exact hc
      refine ⟨0, ?_, ?_, ?_⟩
      · intro k
        have := mul_step_nonneg k step (le_of_lt hs)
        constructor
        · intro h; omega
        · intro h; omega
      · simp [rangeFor, hne]
      · simp [incrementsToEnd, hne]

/-- The effective start stored by the constructor. -/
theorem slice_start {α : Type} (xs : List α) (start stop step : Int) :
    (slice xs start stop step).start = if start < stop ∧ step > 0 then start else stop := rfl

theorem slice_start_fits {α : Type} (bits : Nat) (xs : List α) (start stop step : Int)
    (h1 : fits bits start) (h2 : fits bits stop) : fits bits (slice xs start stop step).start := by
  rw [slice_start]
  split
  · exact h1
  · exact h2

/-- Iterating a view with a positive step, where nothing leaves the range of the
distance type: the loop visits the underlying positions `b + k*step` for
exactly the `k` with `b + k*step < length` and `s + k*step < stop`, where `s` is
the view's start and `b` the offset `begin()` starts from; the same `k` are the
increments counted. -/
theorem slice_loop {α : Type} (bits : Nat) (ra : Bool) (xs : List α) (start stop step : Int)
    (hs : 0 < step) (hstart : fits bits start) (hstop : fits bits stop)
    (hov : stop + step < half_range bits)
    (hlen : ra = true →
      (xs.length : Int) - min (slice xs start stop step).start 0 < half_range bits)
    (fuel : Nat)
    (hf : ((xs.length : Int) - beginOffset ra (slice xs start stop step).start).toNat ≤ fuel
      ∨ (stop - (slice xs start stop step).start).toNat ≤ fuel) :
    ∃ n : Nat,
      (∀ k : Nat, k < n ↔
        (beginOffset ra (slice xs start stop step).start + (k : Int) * step < xs.length
          ∧ (slice xs start stop step).start + (k : Int) * step < stop))
      ∧ rangeFor bits ra fuel ((slice xs start stop step).begin bits ra)
          (slice xs start stop step).end_
        = some ((List.range n).map
            (fun k : Nat => beginOffset ra (slice xs start stop step).start + (k : Int) * step))
      ∧ incrementsToEnd bits ra fuel
          ((slice xs start stop step).begin bits ra) (slice xs start stop step).end_ = some n := by
  have hle : (slice xs start stop step).start ≤ (slice xs start stop step).stop :=
    Slice.ctor_start_le_stop xs start stop step
  rw [begin_eq_clampedState bits ra _ hle
    (fun h => by have := hlen h; show (xs.length : Int) < _; omega), end_eq]
  exact loop_clampedState bits ra xs.length stop step hs hstop.1 hov fuel _ _
    (fun h => by
      have := hlen h
      subst h
      simp only [beginOffset, if_true]
      omega)
    (slice_start_fits bits xs start stop step hstart hstop).1 hf

theorem ne_of_current_eq (a b : Iterator) (h : a.current = b.current) : a.ne b = false := by
  unfold Iterator.ne
  rw [h]
  simp

theorem rangeFor_of_current_eq (bits : Nat) (ra : Bool) (fuel : Nat) (a b : Iterator)
    (h : a.current = b.current) : rangeFor bits ra fuel a b = some [] := by
  cases fuel <;> simp [rangeFor, ne_of_current_eq a b h]

theorem range_map_getElem_eq_take {α : Type} (xs : List α) (n : Nat) (h : n ≤ xs.length) :
    (List.range n).map (fun k : Nat => xs[k]?) = (xs.take n).map some := by
  apply List.ext_getElem
  · simp [h]
  · intro i h1 h2
    simp at h1
    simp [h1]

/-! ## Increments: auxiliary facts -/

/-- An increment where `current + step` stays in the range of the distance
type: the logical position is advanced and clamped at `stop`. -/
theorem incr_current_eq (bits : Nat) (ra : Bool) (it : Iterator) (hcs : it.current ≤ it.stop)
    (hlo : -half_range bits ≤ it.current) (hs : 0 ≤ it.step)
    (hov : it.stop + it.step < half_range bits) :
    (it.incr bits ra).current = min (it.current + it.step) it.stop := by
  unfold Iterator.incr
  simp only
  rw [wrap_of_fits bits (it.current + it.step) (by omega) (by omega)]
  split <;> omega

theorem incrN_current (bits : Nat) (ra : Bool) (N : Nat) (it : Iterator)
    (hcs : it.current ≤ it.stop) (hlo : -half_range bits ≤ it.current) (hs : 0 ≤ it.step)
    (hov : it.stop + it.step < half_range bits) :
    (Iterator.incrN bits ra N it).current = min (it.current + (N : Int) * it.step) it.stop := by
  induction N generalizing it with
  | zero =>
    simp only [Iterator.incrN, Nat.cast_zero, zero_mul, add_zero]
    omega
  | succ m ih =>
    have h1 := incr_current_eq bits ra it hcs hlo hs hov
    have e1 : (it.incr bits ra).step = it.step := rfl
    have e2 : (it.incr bits ra).stop = it.stop := rfl
    simp only [Iterator.incrN]
    rw [ih (it.incr bits ra) (by rw [h1, e2]; omega) (by rw [h1]; omega) (by rw [e1]; exact hs)
      (by rw [e1, e2]; exact hov), h1, e1, e2]
    have e3 : ((m + 1 : Nat) : Int) * it.step = (m : Int) * it.step + it.step := by
      push_cast; ring
    rw [e3]
    have := mul_step_nonneg m it.step hs
    omega

/-- Increments with a non-positive step, as long as the logical position stays
in the range of the distance type: it moves by `step` each time. -/
theorem incrN_current_nonpos (bits : Nat) (ra : Bool) (N : Nat) (it : Iterator)
    (hcs : it.current ≤ it.stop) (hhi : it.stop < half_range bits) (hs : it.step ≤ 0)
    (hlo : -half_range bits ≤ it.current + (N : Int) * it.step) :
    (Iterator.incrN bits ra N it).current = it.current + (N : Int) * it.step := by
  induction N generalizing it with
  | zero => simp [Iterator.incrN]
  | succ m ih =>
    have e3 : ((m + 1 : Nat) : Int) * it.step = (m : Int) * it.step + it.step := by
      push_cast; ring
    rw [e3] at hlo ⊢
    have hm : (m : Int) * it.step ≤ 0 :=
      Int.mul_nonpos_of_nonneg_of_nonpos (Int.ofNat_nonneg m) hs
    have h1 : (it.incr bits ra).current = it.current + it.step := by
      unfold Iterator.incr
      simp only
      rw [wrap_of_fits bits (it.current + it.step) (by omega) (by omega)]
      split <;> omega
    have e1 : (it.incr bits ra).step = it.step := rfl
    have e2 : (it.incr bits ra).stop = it.stop := rfl
    simp only [Iterator.incrN]
    rw [ih (it.incr bits ra) (by rw [h1, e2]; omega) (by rw [e2]; exact hhi) (by rw [e1]; exact hs)
      (by rw [h1, e1]; omega), h1, e1]
    omega

theorem dumb_advance_le_end (bits : Nat) (ra : Bool) (p e d : Int) (hpe : p ≤ e) :
    dumb_advance bits ra p e d ≤ e := by
  unfold dumb_advance
  cases ra
  · simp only [Bool.false_eq_true, if_false]
    rw [dumb_advance_impl_false_eq p e d hpe]
    omega
  · simp only [if_true]
    exact (dumb_advance_impl_true_facts bits p e d hpe).2.1

theorem begin_sub_le {α : Type} (bits : Nat) (ra : Bool) (v : Slice α) :
    (v.begin bits ra).sub_iter ≤ (v.container.length : Int) :=
  dumb_advance_le_end bits ra 0 _ _ (Int.ofNat_nonneg _)

/-- One increment with a non-negative step from an underlying position at or
before the true end, whatever the width: the underlying iterator lands on the
true end or exactly `step` further, and not beyond the true end. -/
theorem incr_sub_step (bits : Nat) (ra : Bool) (it : Iterator) (h : it.sub_iter ≤ it.sub_end)
    (hs : 0 ≤ it.step) :
    ((it.incr bits ra).sub_iter = it.sub_end
      ∨ (it.incr bits ra).sub_iter = it.sub_iter + it.step)
    ∧ (it.incr bits ra).sub_iter ≤ it.sub_end :=
  dumb_advance_step bits ra it.sub_iter it.sub_end it.step h hs

/-- A loop whose iterator moves by a positive step ends within the distance to
the true end, whatever the width. -/
theorem rangeFor_isSome (bits : Nat) (ra : Bool) (fuel : Nat) (it e : Iterator)
    (he : e.sub_iter = it.sub_end) (h : it.sub_iter ≤ it.sub_end) (hs : 0 < it.step)
    (hf : (it.sub_end - it.sub_iter).toNat ≤ fuel) :
    ∃ r : List Int, rangeFor bits ra fuel it e = some r := by
  induction fuel generalizing it with
  | zero =>
    have hne : it.ne e = false := by
      unfold Iterator.ne
      have : it.sub_iter = e.sub_iter := by omega
      rw [this]
      simp
    exact ⟨[], by simp [rangeFor, hne]⟩
  | succ f ih =>
    by_cases hne : it.ne e = true
    · have hstep := incr_sub_step bits ra it h (le_of_lt hs)
      have e1 : (it.incr bits ra).sub_end = it.sub_end := rfl
      have e2 : (it.incr bits ra).step = it.step := rfl
      obtain ⟨r, hr⟩ := ih (it.incr bits ra) (by rw [e1]; exact he) (by rw [e1]; exact hstep.2)
        (by rw [e2]; exact hs) (by rw [e1]; omega)
      exact ⟨it.sub_iter :: r, by simp [rangeFor, hne, hr]⟩
    · exact ⟨[], by simp [rangeFor, hne]⟩

/-- A larger bound on the loop bodies does not change a finished range-for loop. -/
theorem rangeFor_fuel_succ (bits : Nat) (ra : Bool) (fuel : Nat) (it e : Iterator) (r : List Int)
    (h : rangeFor bits ra fuel it e = some r) : rangeFor bits ra (fuel + 1) it e = some r := by
  induction fuel generalizing it r with
  | zero =>
    simp only [rangeFor] at h ⊢
    by_cases hne : it.ne e = true
    · simp [hne] at h
    · simp only [hne, if_false] at h ⊢
      exact h
  | succ f ih =>
    rw [rangeFor] at h
    rw [rangeFor]
    by_cases hne : it.ne e = true
    · simp only [hne, if_true] at h ⊢
      cases hr : rangeFor bits ra f (it.incr bits ra) e with
      | none => simp [hr] at h
      | some r1 =>
        rw [hr] at h
        rw [ih (it.incr bits ra) r1 hr]
        exact h
    · simp only [hne, if_false] at h ⊢
      exact h

theorem rangeFor_fuel_add (bits : Nat) (ra : Bool) (fuel extra : Nat) (it e : Iterator)
    (r : List Int) (h : rangeFor bits ra fuel it e = some r) :
    rangeFor bits ra (fuel + extra) it e = some r := by
  induction extra with
  | zero => exact h
  | succ m ih => exact rangeFor_fuel_succ bits ra (fuel + m) it e r ih

/-- Iterating a view built by `slice` always finishes within the bound used by
`Slice.trace`, whatever the arguments, the category and the width, and any
larger bound gives the same positions. -/
theorem Slice.trace_isSome {α : Type} (bits : Nat) (ra : Bool) (xs : List α)
    (start stop step : Int) :
    ∃ ps : List Int, (slice xs start stop step).trace bits ra = some ps
      ∧ ∀ extra : Nat,
          rangeFor bits ra
            (((xs.length : Int) - ((slice xs start stop step).begin bits ra).sub_iter).toNat
              + extra)
            ((slice xs start stop step).begin bits ra) (slice xs start stop step).end_
            = some ps := by
  have key : ∃ ps : List Int, (slice xs start stop step).trace bits ra = some ps := by
    by_cases hs : 0 < step
    · exact rangeFor_isSome bits ra _ _ _ rfl (begin_sub_le bits ra _) hs (le_refl _)
    · have hst : (slice xs start stop step).start = stop := by
        rw [slice_start, if_neg (fun hh => hs hh.2)]
      have hcur : ((slice xs start stop step).begin bits ra).current
          = (slice xs start stop step).end_.current := hst
      exact ⟨[], rangeFor_of_current_eq bits ra _ _ _ hcur⟩
  obtain ⟨ps, hps⟩ := key
  exact ⟨ps, hps, fun extra => rangeFor_fuel_add bits ra _ extra _ _ ps hps⟩

theorem slice_yields_eq {α : Type} (bits : Nat) (ra : Bool) (xs : List α)
    (start stop step : Int) :
    (slice xs start stop step).yields bits ra
      = (rangeFor bits ra
          ((xs.length : Int) - ((slice xs start stop step).begin bits ra).sub_iter).toNat
          ((slice xs start stop step).begin bits ra) (slice xs start stop step).end_).map
        (fun ps => ps.map (deref xs)) := rfl

/-! ## Claims -/

/-- C2, at the input `slice(v, -2, 10, 1)` over a random-access sequence of
length 5 (32-bit `DifferenceType`): `begin()` moves the underlying iterator to
position `-2`, and `7` increments are performed before the iterator first
compares equal to `end()`, more than `min(ceil((10 - (-2))/1), 5) = 5`. -/
theorem increments_random_access_negative_start :
    ((slice [0, 1, 2, 3, 4] (-2) 10 1).begin 32 true).sub_iter = -2
    ∧ incrementsToEnd 32 true (10 - (slice [0, 1, 2, 3, 4] (-2) 10 1).start).toNat
        ((slice [0, 1, 2, 3, 4] (-2) 10 1).begin 32 true) (slice [0, 1, 2, 3, 4] (-2) 10 1).end_
      = some 7
    ∧ ¬ ((7 : Int) ≤ min (spec_ceil_div (10 - (-2)) 1) (([0, 1, 2, 3, 4] : List Nat).length : Int)) := by
  decide

/-- Termination and increment bound where the underlying iterator starts inside
the sequence (`start >= 0`, or a forward-only sequence) and nothing leaves the
range of the distance type: for `step > 0` the iterator compares equal to
`end()` after `n` increments, with `n <= min(ceil((stop - start)/step), length)`
and `n = 0` when `start >= stop`. -/
theorem increments_bound {α : Type} (bits : Nat) (ra : Bool) (xs : List α)
    (start stop step : Int) (hstart : fits bits start) (hstop : fits bits stop)
    (hov : stop + step < half_range bits)
    (hlen : ra = true → (xs.length : Int) < half_range bits)
    (hs : 0 < step) (h : 0 ≤ start ∨ ra = false) :
    ∃ n : Nat,
      incrementsToEnd bits ra (stop - (slice xs start stop step).start).toNat
          ((slice xs start stop step).begin bits ra) (slice xs start stop step).end_ = some n
      ∧ (n : Int) ≤ min (max 0 (spec_ceil_div (stop - start) step)) (xs.length : Int)
      ∧ (stop ≤ start → n = 0) := by
  by_cases hlt : start < stop
  · have hst : (slice xs start stop step).start = start := by
      rw [slice_start, if_pos ⟨hlt, hs⟩]
    have hb : 0 ≤ beginOffset ra start := by
      unfold beginOffset
      rcases h with h | h
      · split <;> omega
      · subst h; simp
    obtain ⟨n, hn, _, hi⟩ := slice_loop bits ra xs start stop step hs hstart hstop hov
      (fun h1 => by
        have := hlen h1
        rw [hst]
        rcases h with h | h
        · omega
        · rw [h] at h1; exact absurd h1 (by decide))
      (stop - (slice xs start stop step).start).toNat (Or.inr (le_refl _))
    refine ⟨n, hi, ?_, fun hge => by omega⟩
    rw [hst] at hn
    cases n with
    | zero =>
      have : (0 : Int) ≤ (xs.length : Int) := Int.ofNat_nonneg _
      simp only [Nat.cast_zero]
      omega
    | succ m =>
      have hm := (hn m).1 (Nat.lt_succ_self m)
      have hmul : (m : Int) * 1 ≤ (m : Int) * step :=
        Int.mul_le_mul_of_nonneg_left (by omega) (Int.ofNat_nonneg m)
      have hceil : ((m + 1 : Nat) : Int) ≤ spec_ceil_div (stop - start) step := by
        unfold spec_ceil_div
        rw [Int.le_ediv_iff_mul_le hs]
        have e : ((m + 1 : Nat) : Int) * step = (m : Int) * step + step := by
          push_cast; ring
        rw [e]
        omega
      have hlen2 : ((m + 1 : Nat) : Int) ≤ (xs.length : Int) := by
        push_cast
        omega
      omega
  · have hst : (slice xs start stop step).start = stop := by
      rw [slice_start, if_neg (fun hh => hlt hh.1)]
    have hcur : ((slice xs start stop step).begin bits ra).current
        = (slice xs start stop step).end_.current := hst
    have hne := ne_of_current_eq _ _ hcur
    refine ⟨0, ?_, ?_, fun _ => rfl⟩
    · cases (stop - (slice xs start stop step).start).toNat <;> simp [incrementsToEnd, hne]
    · have : (0 : Int) ≤ (xs.length : Int) := Int.ofNat_nonneg _
      simp only [Nat.cast_zero]
      omega

/-- C3. For every sequence, on either iterator category, and every `start`,
`stop`, `step` with `step > 0` and `start >= stop`: `begin()` compares equal to
`end()` before any increment, and the iteration dereferences nothing. -/
theorem slice_empty_of_stop_le_start {α : Type} (bits : Nat) (ra : Bool) (xs : List α)
    (start stop step : Int) (_hs : 0 < step) (h : stop ≤ start) :
    ((slice xs start stop step).begin bits ra).eq (slice xs start stop step).end_ = true
    ∧ (slice xs start stop step).yields bits ra = some []
    ∧ ∀ fuel : Nat,
        rangeFor bits ra fuel ((slice xs start stop step).begin bits ra)
          (slice xs start stop step).end_ = some [] := by
  have hst : (slice xs start stop step).start = stop := by
    rw [slice_start, if_neg (fun hh => by omega)]
  have hcur : ((slice xs start stop step).begin bits ra).current
      = (slice xs start stop step).end_.current := hst
  refine ⟨?_, ?_, fun fuel => rangeFor_of_current_eq bits ra fuel _ _ hcur⟩
  · unfold Iterator.eq
    rw [ne_of_current_eq _ _ hcur]
    rfl
  · rw [slice_yields_eq, rangeFor_of_current_eq bits ra _ _ _ hcur]
    rfl

/-- C3, witness: a sequence of length 5, `slice(seq, 3, 2, 1)`. -/
theorem slice_empty_of_stop_le_start_witness :
    ((0 : Int) < 1 ∧ (2 : Int) ≤ 3)
    ∧ ((slice [10, 20, 30, 40, 50] 3 2 1).begin 32 true).eq
        (slice [10, 20, 30, 40, 50] 3 2 1).end_ = true
    ∧ (slice [10, 20, 30, 40, 50] 3 2 1).yields 32 true = some []
    ∧ ∀ fuel : Nat,
        rangeFor 32 true fuel ((slice [10, 20, 30, 40, 50] 3 2 1).begin 32 true)
          (slice [10, 20, 30, 40, 50] 3 2 1).end_ = some [] :=
  ⟨⟨by decide, by decide⟩,
    slice_empty_of_stop_le_start 32 true [10, 20, 30, 40, 50] 3 2 1 (by decide) (by decide)⟩

/-- C4. For every position `p` at or before the true end `e` and every distance
`d`, whatever the width of `Distance`, both overloads of the bounded advance
leave the iterator at a position `<= e`, and at exactly `e` whenever `d` exceeds
the remaining `e - p`. -/
theorem dumb_advance_never_overruns (bits : Nat) (p e d : Int) (h : p ≤ e) :
    (dumb_advance_impl_true bits p e d ≤ e ∧ dumb_advance_impl_false p e d ≤ e)
    ∧ (e - p < d → dumb_advance_impl_true bits p e d = e ∧ dumb_advance_impl_false p e d = e)
    ∧ ∀ ra : Bool, dumb_advance bits ra p e d ≤ e
        ∧ (e - p < d → dumb_advance bits ra p e d = e) := by
  have ht := dumb_advance_impl_true_facts bits p e d h
  have hf := dumb_advance_impl_false_eq p e d h
  refine ⟨⟨ht.2.1, by omega⟩, fun hd => ⟨ht.2.2 hd, by omega⟩, ?_⟩
  intro ra
  unfold dumb_advance
  cases ra
  · simp only [Bool.false_eq_true, if_false]
    exact ⟨by omega, fun hd => by omega⟩
  · simp only [if_true]
    exact ⟨ht.2.1, ht.2.2⟩

/-- C4, witness: position 1 of a sequence with true end 5, distance 10. -/
theorem dumb_advance_never_overruns_witness :
    (1 : Int) ≤ 5
    ∧ (dumb_advance_impl_true 32 1 5 10 ≤ 5 ∧ dumb_advance_impl_false 1 5 10 ≤ 5)
    ∧ ((5 : Int) - 1 < 10 →
        dumb_advance_impl_true 32 1 5 10 = 5 ∧ dumb_advance_impl_false 1 5 10 = 5)
    ∧ ∀ ra : Bool, dumb_advance 32 ra 1 5 10 ≤ 5
        ∧ ((5 : Int) - 1 < 10 → dumb_advance 32 ra 1 5 10 = 5) :=
  ⟨by decide, dumb_advance_never_overruns 32 1 5 10 (by decide)⟩

/-- C5, as stated, fails for the forward-only overload at a negative distance:
from position 0 with true end 5 and distance -2 the loop body never runs, so
the iterator stays at 0, which is neither `0 + (-2)` nor the end 5. -/
theorem dumb_advance_forward_negative_distance :
    (0 : Int) ≤ 5
    ∧ dumb_advance_impl_false 0 5 (-2) = 0
    ∧ ¬ (dumb_advance_impl_false 0 5 (-2) = 0 + (-2) ∨ dumb_advance_impl_false 0 5 (-2) = 5) := by
  decide

/-- C5, amended. For every position `p` at or before the true end `e` and every
distance `d >= 0`, whatever the width of `Distance`, after either overload of
the bounded advance the iterator is at `p + d` or at `e`, and never beyond `e`;
for `d < 0` the forward-only overload performs no increment and leaves the
iterator at `p`. -/
theorem dumb_advance_exact_or_end (bits : Nat) (p e d : Int) (h : p ≤ e) :
    (0 ≤ d →
      ((dumb_advance_impl_true bits p e d = p + d ∨ dumb_advance_impl_true bits p e d = e)
        ∧ dumb_advance_impl_true bits p e d ≤ e)
      ∧ ((dumb_advance_impl_false p e d = p + d ∨ dumb_advance_impl_false p e d = e)
        ∧ dumb_advance_impl_false p e d ≤ e))
    ∧ (d < 0 → dumb_advance_impl_false p e d = p) := by
  have ht := dumb_advance_impl_true_facts bits p e d h
  have hf := dumb_advance_impl_false_eq p e d h
  refine ⟨fun hd => ⟨⟨ht.1.symm, ht.2.1⟩, ⟨?_, ?_⟩⟩, fun hd => ?_⟩ <;> omega

/-- C5 amended, witness: position 1, true end 5, distance 2. -/
theorem dumb_advance_exact_or_end_witness :
    ((1 : Int) ≤ 5 ∧ (0 : Int) ≤ 2)
    ∧ ((dumb_advance_impl_true 32 1 5 2 = 1 + 2 ∨ dumb_advance_impl_true 32 1 5 2 = 5)
        ∧ dumb_advance_impl_true 32 1 5 2 ≤ 5)
    ∧ ((dumb_advance_impl_false 1 5 2 = 1 + 2 ∨ dumb_advance_impl_false 1 5 2 = 5)
        ∧ dumb_advance_impl_false 1 5 2 ≤ 5) :=
  ⟨⟨by decide, by decide⟩, (dumb_advance_exact_or_end 32 1 5 2 (by decide)).1 (by decide)⟩

/-- C6, at a remaining distance that `Distance` cannot hold: with a 16-bit
`Distance`, from position 0 of a random-access sequence of 40000 elements and
distance 3, `static_cast<Distance>(end - iter)` is -25536, which is below 3, so
the random-access overload sets the iterator to the end (40000); the
forward-only loop stops at `min(0 + 3, 40000) = 3`. With an 8-bit
`DifferenceType` on 200 elements, `slice(seq, 0, 10, 1)` yields nothing on the
random-access sequence and the first ten elements on the forward-only one. -/
theorem random_access_advance_truncates :
    ((0 : Int) ≤ 40000 ∧ (0 : Int) ≤ 3 ∧ fits 16 3)
    ∧ dumb_advance_impl_true 16 0 40000 3 = 40000
    ∧ dumb_advance_impl_false 0 40000 3 = 3
    ∧ min ((0 : Int) + 3) 40000 = 3
    ∧ (slice (List.range 200) 0 10 1).yields 8 true = some []
    ∧ (slice (List.range 200) 0 10 1).yields 8 false = some ((List.range 10).map some) := by
  decide

theorem incr_category (bits : Nat) (it : Iterator) (h0 : 0 ≤ it.sub_iter)
    (h1 : it.sub_iter ≤ it.sub_end) (h2 : it.sub_end < half_range bits) (hs : 0 ≤ it.step) :
    it.incr bits false = it.incr bits true
    ∧ 0 ≤ (it.incr bits true).sub_iter
    ∧ (it.incr bits true).sub_iter ≤ (it.incr bits true).sub_end := by
  have hf := dumb_advance_eq_min bits false it.sub_iter it.sub_end it.step h1 hs (by simp)
  have ht := dumb_advance_eq_min bits true it.sub_iter it.sub_end it.step h1 hs
    (fun _ => by omega)
  refine ⟨?_, ?_, ?_⟩
  · unfold Iterator.incr
    simp only
    rw [hf, ht]
  · show 0 ≤ dumb_advance bits true it.sub_iter it.sub_end it.step
    rw [ht]; omega
  · show dumb_advance bits true it.sub_iter it.sub_end it.step ≤ it.sub_end
    rw [ht]; omega

theorem rangeFor_category (bits : Nat) (fuel : Nat) (it e : Iterator) (h0 : 0 ≤ it.sub_iter)
    (h1 : it.sub_iter ≤ it.sub_end) (h2 : it.sub_end < half_range bits) (hs : 0 ≤ it.step) :
    rangeFor bits false fuel it e = rangeFor bits true fuel it e := by
  induction fuel generalizing it with
  | zero => rfl
  | succ f ih =>
    obtain ⟨hc, h3, h4⟩ := incr_category bits it h0 h1 h2 hs
    simp only [rangeFor]
    rw [hc, ih (it.incr bits true) h3 h4 h2 hs]

/-- The two overloads agree where the remaining distance is a value of
`Distance`, and the two categories yield the same elements for `start >= 0` on
a sequence whose length is a value of `DifferenceType`. -/
theorem forward_matches_random_access_of_fits {α : Type} (bits : Nat) (p e d : Int)
    (hpe : p ≤ e) (hd : 0 ≤ d) (hfit : e - p < half_range bits)
    (xs : List α) (start stop step : Int) (h0 : 0 ≤ start)
    (hlen : (xs.length : Int) < half_range bits) :
    (dumb_advance_impl_false p e d = min (p + d) e
      ∧ dumb_advance_impl_true bits p e d = min (p + d) e)
    ∧ (slice xs start stop step).yields bits false = (slice xs start stop step).yields bits true := by
  refine ⟨⟨?_, dumb_advance_impl_true_eq bits p e d hpe hfit⟩, ?_⟩
  · rw [dumb_advance_impl_false_eq p e d hpe]
    omega
  · rw [slice_yields_eq, slice_yields_eq]
    congr 1
    by_cases hc : start < stop ∧ step > 0
    · have hst : (slice xs start stop step).start = start := by
        rw [slice_start, if_pos hc]
      have hle : (slice xs start stop step).start ≤ (slice xs start stop step).stop :=
        Slice.ctor_start_le_stop xs start stop step
      have hbt := begin_eq_clampedState bits true _ hle (fun _ => hlen)
      have hbf := begin_eq_clampedState bits false _ hle (by simp)
      have hb : beginOffset false (slice xs start stop step).start
          = beginOffset true (slice xs start stop step).start := by
        rw [hst]
        unfold beginOffset
        simp only [Bool.false_eq_true, if_false, if_true]
        omega
      have hbeq : (slice xs start stop step).begin bits false
          = (slice xs start stop step).begin bits true := by
        rw [hbt, hbf, hb]
      rw [hbeq]
      have hsub : ((slice xs start stop step).begin bits true).sub_iter
          = min start (xs.length : Int) := by
        rw [hbt, hst]
        unfold beginOffset
        rfl
      exact rangeFor_category bits _ _ _ (by rw [hsub]; omega) (begin_sub_le bits true _) hlen
        (le_of_lt hc.2)
    · have hst : (slice xs start stop step).start = stop := by
        rw [slice_start, if_neg hc]
      have hcur : ∀ ra : Bool, ((slice xs start stop step).begin bits ra).current
          = (slice xs start stop step).end_.current := fun _ => hst
      rw [rangeFor_of_current_eq bits false _ _ _ (hcur false),
        rangeFor_of_current_eq bits true _ _ _ (hcur true)]

/-- C7, as stated, fails when `current += step` leaves the range of the
distance type: with a 16-bit `DifferenceType`, `slice(seq, 32766, 32767, 2)` has
`current = -32768` after one increment (32768 reduced into the type, which is
not beyond `stop`), not `min(32766 + 1*2, 32767) = 32767`. With `start` read as
the constructor argument it also fails for a step that is not positive:
`slice(seq, 0, 5, 0)` has `begin()` at logical position 5, the stored start, not
`min(0 + 0*0, 5) = 0`. -/
theorem slice_current_wraps :
    (fits 16 32766 ∧ fits 16 32767 ∧ fits 16 2)
    ∧ (slice [0, 1, 2] 32766 32767 2).start = 32766
    ∧ (Iterator.incrN 16 false 1 ((slice [0, 1, 2] 32766 32767 2).begin 16 false)).current
        = -32768
    ∧ ¬ ((Iterator.incrN 16 false 1 ((slice [0, 1, 2] 32766 32767 2).begin 16 false)).current
          = min ((32766 : Int) + ((1 : Nat) : Int) * 2) 32767)
    ∧ (Iterator.incrN 16 false 0 ((slice [0, 1, 2] 0 5 0).begin 16 false)).current = 5
    ∧ ¬ ((Iterator.incrN 16 false 0 ((slice [0, 1, 2] 0 5 0).begin 16 false)).current
          = min ((0 : Int) + ((0 : Nat) : Int) * 0) 5) := by
  decide

/-- C7, amended. For every view `slice(seq, start, stop, step)` with `step > 0`
and `stop + step` representable in `DifferenceType`, on either iterator
category, and every `N`: after `N` applications of `operator++` to `begin()` the
logical position `current` is `min(start + N*step, stop)`, with `start` the
constructor argument and equally with `start` the view's member. For
`step <= 0` the same holds with `start` the view's member as long as
`stop + N*step` is representable. -/
theorem slice_current_after_increments {α : Type} (bits : Nat) (ra : Bool) (xs : List α)
    (start stop step : Int) (N : Nat) (hstart : fits bits start) (hstop : fits bits stop) :
    (0 < step → stop + step < half_range bits →
      (Iterator.incrN bits ra N ((slice xs start stop step).begin bits ra)).current
          = min (start + (N : Int) * step) stop
      ∧ (Iterator.incrN bits ra N ((slice xs start stop step).begin bits ra)).current
          = min ((slice xs start stop step).start + (N : Int) * step) stop)
    ∧ (step ≤ 0 → -half_range bits ≤ stop + (N : Int) * step →
      (Iterator.incrN bits ra N ((slice xs start stop step).begin bits ra)).current
          = min ((slice xs start stop step).start + (N : Int) * step) stop) := by
  have hle : (slice xs start stop step).start ≤ stop := Slice.ctor_start_le_stop xs start stop step
  have hfit := slice_start_fits bits xs start stop step hstart hstop
  constructor
  · intro hs hov
    have hmain : (Iterator.incrN bits ra N ((slice xs start stop step).begin bits ra)).current
        = min ((slice xs start stop step).start + (N : Int) * step) stop :=
      incrN_current bits ra N ((slice xs start stop step).begin bits ra) hle hfit.1
        (le_of_lt hs) hov
    refine ⟨?_, hmain⟩
    rw [hmain, slice_start]
    have := mul_step_nonneg N step (le_of_lt hs)
    split <;> omega
  · intro hs hlo
    have hst : (slice xs start stop step).start = stop := by
      rw [slice_start, if_neg (fun hh => by omega)]
    have hmain : (Iterator.incrN bits ra N ((slice xs start stop step).begin bits ra)).current
        = (slice xs start stop step).start + (N : Int) * step :=
      incrN_current_nonpos bits ra N ((slice xs start stop step).begin bits ra) hle hstop.2 hs
        (by rw [show ((slice xs start stop step).begin bits ra).current
              = (slice xs start stop step).start from rfl, hst]; exact hlo)
    rw [hmain, hst]
    have : (N : Int) * step ≤ 0 :=
      Int.mul_nonpos_of_nonneg_of_nonpos (Int.ofNat_nonneg N) hs
    omega

/-- C7 amended, witness: `slice([0..9], 2, 8, 2)`, two increments, 32-bit
`DifferenceType`. -/
theorem slice_current_after_increments_witness :
    (fits 32 2 ∧ fits 32 8 ∧ (0 : Int) < 2 ∧ (8 : Int) + 2 < half_range 32)
    ∧ (Iterator.incrN 32 true 2 ((slice [0, 1, 2, 3, 4, 5, 6, 7, 8, 9] 2 8 2).begin 32 true)).current
        = min (2 + ((2 : Nat) : Int) * 2) 8 :=
  ⟨by decide,
    ((slice_current_after_increments 32 true [0, 1, 2, 3, 4, 5, 6, 7, 8, 9] 2 8 2 2 (by decide)
      (by decide)).1 (by decide) (by decide)).1⟩

/-- C8, at the input `slice(v, -2, 3, 1)` over a random-access sequence of
length 5 (32-bit `DifferenceType`): `begin()` leaves the underlying iterator at
position `-2`, this iterator compares unequal to `end()`, and the iteration
dereferences the positions `-2` and `-1`, which are outside `[0, 5)`. The
forward-only overload of the bounded advance keeps every dereference inside the
sequence on the same input. -/
theorem slice_random_access_negative_start :
    ((slice [0, 1, 2, 3, 4] (-2) 3 1).begin 32 true).sub_iter = -2
    ∧ ((slice [0, 1, 2, 3, 4] (-2) 3 1).begin 32 true).ne
        (slice [0, 1, 2, 3, 4] (-2) 3 1).end_ = true
    ∧ deref [0, 1, 2, 3, 4] ((slice [0, 1, 2, 3, 4] (-2) 3 1).begin 32 true).sub_iter = none
    ∧ (slice [0, 1, 2, 3, 4] (-2) 3 1).trace 32 true = some [-2, -1, 0, 1, 2]
    ∧ (slice [0, 1, 2, 3, 4] (-2) 3 1).trace 32 false = some [0, 1, 2, 3, 4] := by
  decide

theorem rangeFor_in_bounds (bits : Nat) (ra : Bool) (fuel : Nat) (it e : Iterator)
    (r : List Int) (he : e.sub_iter = it.sub_end) (h0 : 0 ≤ it.sub_iter)
    (h1 : it.sub_iter ≤ it.sub_end) (hs : 0 ≤ it.step)
    (hr : rangeFor bits ra fuel it e = some r) :
    ∀ q ∈ r, 0 ≤ q ∧ q < it.sub_end := by
  induction fuel generalizing it r with
  | zero =>
    simp only [rangeFor] at hr
    by_cases hne : it.ne e = true
    · simp [hne] at hr
    · simp [hne] at hr
      subst hr
      simp
  | succ f ih =>
    rw [rangeFor] at hr
    by_cases hne : it.ne e = true
    · simp only [hne, if_true] at hr
      cases hr1 : rangeFor bits ra f (it.incr bits ra) e with
      | none => simp [hr1] at hr
      | some r1 =>
        rw [hr1] at hr
        simp only [Option.map_some', Option.some.injEq] at hr
        subst hr
        have hstep := incr_sub_step bits ra it h1 hs
        have e1 : (it.incr bits ra).sub_end = it.sub_end := rfl
        have e2 : (it.incr bits ra).step = it.step := rfl
        have hrec := ih (it.incr bits ra) r1 (by rw [e1]; exact he) (by omega)
          (by rw [e1]; exact hstep.2) (by rw [e2]; exact hs) hr1
        rw [e1] at hrec
        rw [Iterator.ne] at hne
        simp only [Bool.and_eq_true, bne_iff_ne, ne_eq] at hne
        intro q hq
        rcases List.mem_cons.mp hq with hq | hq
        · subst hq
          exact ⟨h0, by omega⟩
        · exact hrec q hq
    · simp [hne] at hr
      subst hr
      simp

/-- Whatever the width and the arguments, a view with `step > 0` over a
forward-only sequence, or over a random-access sequence with `start >= 0`,
dereferences only positions in `[0, length)`. -/
theorem slice_deref_in_bounds {α : Type} (bits : Nat) (ra : Bool) (xs : List α)
    (start stop step : Int) (hs : 0 < step) (h : 0 ≤ start ∨ ra = false) :
    ∃ ps : List Int, (slice xs start stop step).trace bits ra = some ps
      ∧ ∀ q ∈ ps, 0 ≤ q ∧ q < (xs.length : Int) := by
  obtain ⟨ps, hps, _⟩ := Slice.trace_isSome bits ra xs start stop step
  refine ⟨ps, hps, ?_⟩
  unfold Slice.trace at hps
  by_cases hlt : start < stop
  · have hst : (slice xs start stop step).start = start := by
      rw [slice_start, if_pos ⟨hlt, hs⟩]
    have hb0 : 0 ≤ ((slice xs start stop step).begin bits ra).sub_iter := by
      show 0 ≤ dumb_advance bits ra 0 (xs.length : Int) (slice xs start stop step).start
      rw [hst]
      rcases h with h | h
      · have := dumb_advance_step bits ra 0 (xs.length : Int) start (Int.ofNat_nonneg _) h
        omega
      · subst h
        unfold dumb_advance
        simp only [Bool.false_eq_true, if_false]
        rw [dumb_advance_impl_false_eq _ _ _ (Int.ofNat_nonneg _)]
        omega
    exact rangeFor_in_bounds bits ra _ _ _ ps rfl hb0 (begin_sub_le bits ra _) (le_of_lt hs) hps
  · have hst : (slice xs start stop step).start = stop := by
      rw [slice_start, if_neg (fun hh => hlt hh.1)]
    have hcur : ((slice xs start stop step).begin bits ra).current
        = (slice xs start stop step).end_.current := hst
    rw [rangeFor_of_current_eq bits ra _ _ _ hcur] at hps
    simp only [Option.some.injEq] at hps
    subst hps
    simp

/-- C9. For any two Slice iterators `a` and `b`: `a != b` holds exactly when
their underlying iterators differ and their logical positions differ; `a == b`
holds exactly when their underlying iterators are equal or their logical
positions are equal; and `==` is the negation of `!=`. -/
theorem iterator_ne_eq_spec (a b : Iterator) :
    (a.ne b = true ↔ (a.sub_iter ≠ b.sub_iter ∧ a.current ≠ b.current))
    ∧ (a.eq b = true ↔ (a.sub_iter = b.sub_iter ∨ a.current = b.current))
    ∧ a.eq b = !(a.ne b) := by
  refine ⟨?_, ?_, rfl⟩
  · unfold Iterator.ne
    simp
  · unfold Iterator.eq Iterator.ne
    simp only [Bool.not_eq_true', Bool.and_eq_false_iff, bne_eq_false_iff_eq]

/-- C10, at a sequence longer than `DifferenceType` can hold: the two-argument
`slice(seq, stop)` builds the same view as `slice(seq, 0, stop, 1)`, but with an
8-bit `DifferenceType` on a random-access sequence of 200 elements
`slice(seq, 10)` yields nothing: in `begin()` the advance by 0 compares
`static_cast<Distance>(200) = -56` with 0 and sets the iterator to the end. The
forward-only sequence yields the first ten elements. -/
theorem slice_stop_random_access_truncates :
    ((0 : Int) ≤ 10 ∧ fits 8 10)
    ∧ slice_stop (List.range 200) 10 = slice (List.range 200) 0 10 1
    ∧ ((slice_stop (List.range 200) 10).begin 8 true).sub_iter = 200
    ∧ (slice_stop (List.range 200) 10).yields 8 true = some []
    ∧ (slice_stop (List.range 200) 10).yields 8 false
        = some (((List.range 200).take 10).map some) := by
  decide

/-- The two-argument form on a forward-only sequence, or on a random-access
sequence whose length is a value of `DifferenceType`: for `stop >= 0` with
`stop + 1` representable, iterating it yields exactly the first
`min(stop, length)` elements in order. -/
theorem slice_stop_yields_take {α : Type} (bits : Nat) (ra : Bool) (xs : List α) (stop : Int)
    (hstop : fits bits stop) (hov : stop + 1 < half_range bits)
    (hlen : ra = true → (xs.length : Int) < half_range bits) (h0 : 0 ≤ stop) :
    slice_stop xs stop = slice xs 0 stop 1
    ∧ (slice_stop xs stop).yields bits ra
        = some ((xs.take (min stop (xs.length : Int)).toNat).map some) := by
  refine ⟨rfl, ?_⟩
  show (slice xs 0 stop 1).yields bits ra = _
  have hp := half_range_pos bits
  have hst : (slice xs 0 stop 1).start = 0 := by
    rw [slice_start]
    split <;> omega
  have hb : beginOffset ra 0 = 0 := by
    unfold beginOffset
    split <;> rfl
  have hle : (slice xs 0 stop 1).start ≤ (slice xs 0 stop 1).stop :=
    Slice.ctor_start_le_stop xs 0 stop 1
  have hsub : ((slice xs 0 stop 1).begin bits ra).sub_iter = min 0 (xs.length : Int) := by
    rw [begin_eq_clampedState bits ra _ hle hlen, hst, hb]
    rfl
  obtain ⟨n, hn, hr, _⟩ := slice_loop bits ra xs 0 stop 1 (by decide) ⟨by omega, hp⟩ hstop hov
    (fun h => by have := hlen h; rw [hst]; omega)
    (((xs.length : Int) - ((slice xs 0 stop 1).begin bits ra).sub_iter).toNat)
    (Or.inl (by rw [hst, hb, hsub]; omega))
  rw [hst, hb] at hn hr
  simp only [mul_one, zero_add] at hn hr
  have hn_eq : n = (min stop (xs.length : Int)).toNat := by
    have h1 := hn n
    have h2 := hn (n - 1)
    omega
  rw [slice_yields_eq, hr]
  simp only [Option.map_some', List.map_map]
  have hfun : (deref xs ∘ fun k : Nat => (k : Int)) = fun k : Nat => xs[k]? := by
    funext k
    simp only [Function.comp_apply, deref]
    rw [if_pos (Int.ofNat_nonneg k)]
    rfl
  rw [hfun, range_map_getElem_eq_take xs n (by omega), hn_eq]

/-! ## The store: auxiliary facts -/

theorem Store.read_lt {α : Type} (m : Store α) (a : Nat) (h : (m.read a).isSome = true) :
    a < m.cells.length := by
  unfold Store.read at h
  by_contra hge
  rw [List.getElem?_eq_none (by omega)] at h
  simp at h

theorem Store.read_make_unique_new {α : Type} (m : Store α) (v : α) :
    (m.make_unique v).2.read (m.make_unique v).1 = some v := by
  simp [Store.read, Store.make_unique]

theorem Store.read_make_unique_old {α : Type} (m : Store α) (v : α) (a : Nat)
    (h : a < m.cells.length) : (m.make_unique v).2.read a = m.read a := by
  simp [Store.read, Store.make_unique, List.getElem?_append_left h]

theorem Store.read_delete {α : Type} (m : Store α) (p : Option Nat) (a : Nat) :
    (m.delete p).read a = if p = some a then none else m.read a := by
  cases p with
  | none => simp [Store.delete]
  | some b =>
    by_cases hb : b = a
    · subst hb
      simp only [Store.delete, Store.read, if_true]
      by_cases hl : b < m.cells.length
      · simp [List.getElem?_set_self hl]
      · rw [List.getElem?_eq_none (by simp; omega)]
        rfl
    · simp only [Store.delete, Store.read, Option.some.injEq, hb, if_false]
      rw [List.getElem?_set_ne hb]

theorem Store.read_write {α : Type} (m : Store α) (a b : Nat) (v : α) :
    (m.write a v).read b = if b = a ∧ (m.read a).isSome = true then some v else m.read b := by
  unfold Store.write
  by_cases hl : (m.read a).isSome = true
  · rw [if_pos hl]
    have hlt := Store.read_lt m a hl
    by_cases hb : b = a
    · subst hb
      rw [if_pos ⟨rfl, hl⟩]
      simp [Store.read, List.getElem?_set_self hlt]
    · have hb2 : a ≠ b := fun h => hb h.symm
      simp only [Store.read, hb, false_and, if_false]
      rw [List.getElem?_set_ne hb2]
  · rw [if_neg hl, if_neg (fun hh => hl hh.2)]

theorem Store.read_make_unique {α : Type} (m : Store α) (v : α) (a : Nat) :
    (m.make_unique v).2.read a = if a = m.cells.length then some v else m.read a := by
  by_cases h : a = m.cells.length
  · subst h
    rw [if_pos rfl]
    exact Store.read_make_unique_new m v
  · rw [if_neg h]
    by_cases hl : a < m.cells.length
    · exact Store.read_make_unique_old m v a hl
    · simp only [Store.read, Store.make_unique]
      rw [List.getElem?_eq_none (by simp; omega), List.getElem?_eq_none (by omega)]

theorem DerefHolder.owns_lt {α : Type} (h : DerefHolder) (m : Store α) (a : Nat)
    (ho : h.owns m = true) (ha : h.item_p = some a) : a < m.cells.length := by
  unfold DerefHolder.owns at ho
  rw [ha] at ho
  exact Store.read_lt m a ho

theorem DerefHolder.reset_fst {α : Type} (h : DerefHolder) (m : Store α) (v : α) :
    (h.reset m v).1 = { item_p := some m.cells.length } := rfl

theorem DerefHolder.reset_snd_read {α : Type} (h : DerefHolder) (m : Store α) (v : α) (a : Nat) :
    (h.reset m v).2.read a
      = if h.item_p = some a then none
        else if a = m.cells.length then some v else m.read a := by
  show ((m.make_unique v).2.delete h.item_p).read a = _
  rw [Store.read_delete, Store.read_make_unique]

/-- What `reset` does on an owning holder that is empty or holds a value:
afterwards `get_ptr()` is not null and `get()` is `v`, the holder's pointer is
no longer the old one, and the old object has been destroyed. -/
theorem derefholder_reset_holds {α : Type} (m : Store α) (h : DerefHolder) (v : α)
    (ho : h.owns m = true) :
    (h.reset m v).1.get_ptr ≠ none
    ∧ (h.reset m v).1.get (h.reset m v).2 = some v
    ∧ ∀ a : Nat, h.get_ptr = some a →
        (h.reset m v).1.get_ptr ≠ some a ∧ (h.reset m v).2.read a = none := by
  have hne : h.item_p ≠ some m.cells.length := by
    intro hh
    have := DerefHolder.owns_lt h m _ ho hh
    omega
  refine ⟨by simp [DerefHolder.reset_fst, DerefHolder.get_ptr], ?_, ?_⟩
  · rw [DerefHolder.reset_fst]
    show (h.reset m v).2.read m.cells.length = some v
    rw [DerefHolder.reset_snd_read, if_neg hne, if_pos rfl]
  · intro a ha
    have ha2 : h.item_p = some a := ha
    have hlt := DerefHolder.owns_lt h m a ho ha2
    constructor
    · rw [DerefHolder.reset_fst]
      simp only [DerefHolder.get_ptr, ne_eq, Option.some.injEq]
      omega
    · rw [DerefHolder.reset_snd_read, if_pos ha2]

/-- C11, at a holder of the value 3 that is reset to 7: `get_ptr()` is the
address of a new object, `get()` returns 7 and the object that held 3 is
destroyed. The bool conversion that the claim also speaks of has no value to
state: the member `explicit operator bool() const { return this->item_p; }`
copy-initialises a `bool` from a `std::unique_ptr`, whose own conversion to
`bool` is explicit, so the member cannot be instantiated; the specialization
for lvalue references returns `this->item_p != nullptr`. -/
theorem derefholder_reset_at_held_value :
    ({ item_p := some 0 } : DerefHolder).owns ({ cells := [some 3] } : Store Nat) = true
    ∧ (({ item_p := some 0 } : DerefHolder).reset ({ cells := [some 3] } : Store Nat) 7).1.get_ptr
        = some 1
    ∧ (({ item_p := some 0 } : DerefHolder).reset ({ cells := [some 3] } : Store Nat) 7).1.get
        (({ item_p := some 0 } : DerefHolder).reset ({ cells := [some 3] } : Store Nat) 7).2
      = some 7
    ∧ (({ item_p := some 0 } : DerefHolder).reset ({ cells := [some 3] } : Store Nat) 7).2.read 0
      = none
    ∧ (({ item_p := none } : DerefHolderRef).reset 0).toBool = true := by
  decide

theorem Store.length_delete {α : Type} (m : Store α) (q : Option Nat) :
    (m.delete q).cells.length = m.cells.length := by
  cases q <;> simp [Store.delete]

theorem Store.length_make_unique {α : Type} (m : Store α) (v : α) :
    (m.make_unique v).2.cells.length = m.cells.length + 1 := by
  simp [Store.make_unique]

/-- The facts about a holder `c` pointing at the fresh copy of the object at
`a`, in the store left after the holder pointer `q` has been given up. -/
theorem copy_facts {α : Type} (m : Store α) (src : DerefHolder) (a : Nat) (w : α)
    (q : Option Nat) (hs : src.item_p = some a) (hw : m.read a = some w)
    (hq1 : q ≠ some a) (hq2 : q ≠ some m.cells.length) :
    let c : DerefHolder := { item_p := some m.cells.length }
    let m1 := (m.make_unique w).2.delete q
    c.get_ptr.isSome = src.get_ptr.isSome
    ∧ c.get m1 = src.get m
    ∧ src.get m1 = src.get m
    ∧ (∀ x : α, src.get (c.reset m1 x).2 = src.get m ∧ c.get (src.reset m1 x).2 = src.get m)
    ∧ (∀ (b : Nat) (x : α), c.get_ptr = some b → src.get (m1.write b x) = src.get m)
    ∧ (∀ (b : Nat) (x : α), src.get_ptr = some b → c.get (m1.write b x) = src.get m) := by
  intro c m1
  have hlt : a < m.cells.length := Store.read_lt m a (by rw [hw]; rfl)
  have hlen : m1.cells.length = m.cells.length + 1 := by
    show ((m.make_unique w).2.delete q).cells.length = _
    rw [Store.length_delete, Store.length_make_unique]
  have hr : ∀ b : Nat, m1.read b
      = if q = some b then none else if b = m.cells.length then some w else m.read b := by
    intro b
    show ((m.make_unique w).2.delete q).read b = _
    rw [Store.read_delete, Store.read_make_unique]
  have hra : m1.read a = some w := by
    rw [hr a, if_neg hq1, if_neg (by omega), hw]
  have hrl : m1.read m.cells.length = some w := by
    rw [hr _, if_neg hq2, if_pos rfl]
  have hsg : ∀ m2 : Store α, src.get m2 = m2.read a := fun m2 => by
    unfold DerefHolder.get; rw [hs]
  have hcg : ∀ m2 : Store α, c.get m2 = m2.read m.cells.length := fun m2 => rfl
  have hne1 : ¬ (some m.cells.length = some a) := by
    simp only [Option.some.injEq]; omega
  refine ⟨?_, ?_, ?_, ?_, ?_, ?_⟩
  · show true = src.item_p.isSome
    rw [hs]; rfl
  · rw [hcg, hsg, hrl, hw]
  · rw [hsg, hsg, hra, hw]
  · intro x
    constructor
    · rw [hsg, hsg, DerefHolder.reset_snd_read, if_neg hne1, if_neg (by omega), hra, hw]
    · rw [hcg, hsg, DerefHolder.reset_snd_read, hs, if_neg (fun h => hne1 h.symm),
        if_neg (by omega), hrl, hw]
  · intro b x hb
    have hb2 : m.cells.length = b := by
      have : some m.cells.length = some b := hb
      simpa using this
    subst hb2
    rw [hsg, hsg, Store.read_write, if_neg (fun h => by omega), hra, hw]
  · intro b x hb
    have hb2 : a = b := by
      have : src.item_p = some b := hb
      rw [hs] at this
      simpa using this
    subst hb2
    rw [hcg, hsg, Store.read_write, if_neg (fun h => by omega), hrl, hw]

/-- The holder pointing at the fresh copy of the object at `a` holds the value of
that object, whichever holder pointer `q` has been given up. -/
theorem copy_value {α : Type} (m : Store α) (src : DerefHolder) (a : Nat) (w : α)
    (q : Option Nat) (hs : src.item_p = some a) (hw : m.read a = some w)
    (hq2 : q ≠ some m.cells.length) :
    ({ item_p := some m.cells.length } : DerefHolder).get_ptr.isSome = src.get_ptr.isSome
    ∧ ({ item_p := some m.cells.length } : DerefHolder).get ((m.make_unique w).2.delete q)
        = src.get m := by
  constructor
  · show true = src.item_p.isSome
    rw [hs]; rfl
  · show ((m.make_unique w).2.delete q).read m.cells.length = src.get m
    have hsg : src.get m = m.read a := by
      unfold DerefHolder.get; rw [hs]
    rw [Store.read_delete, Store.read_make_unique, if_neg hq2, if_pos rfl, hsg, hw]

/-- C12. For an owning holder `src` that is empty or holds a value, and any such
holder `dst`: the copy constructor on `src` and the copy assignment `dst = src`
both succeed, and the resulting holder `c` is empty iff `src` is (its
`get_ptr()` is null iff that of `src` is) and holds a value equal to the one
`src` held. When `dst` is another holder than `src` (it
does not hold the same object), the copy is independent of `src`: `src` still
observes its value after the copy, and a later `reset` on, or assignment to the
value held by, either of the two holders leaves the value observed through the
other unchanged. -/
theorem derefholder_copy_independent {α : Type} (m : Store α) (src dst : DerefHolder)
    (hsrc : src.owns m = true) (hdst : dst.owns m = true) :
    (src.copy m).isSome = true ∧ (dst.assign src m).isSome = true
    ∧ ∀ (c : DerefHolder) (m1 : Store α),
        (src.copy m = some (c, m1) ∨ dst.assign src m = some (c, m1)) →
        (c.get_ptr.isSome = src.get_ptr.isSome ∧ c.get m1 = src.get m)
        ∧ ((∀ a : Nat, dst.item_p = some a → src.item_p ≠ some a) →
            src.get m1 = src.get m
            ∧ (∀ x : α,
                src.get (c.reset m1 x).2 = src.get m ∧ c.get (src.reset m1 x).2 = src.get m)
            ∧ (∀ (b : Nat) (x : α), c.get_ptr = some b → src.get (m1.write b x) = src.get m)
            ∧ (∀ (b : Nat) (x : α), src.get_ptr = some b → c.get (m1.write b x) = src.get m)) := by
  cases hs : src.item_p with
  | none =>
    have hsg : ∀ m2 : Store α, src.get m2 = none := fun m2 => by
      unfold DerefHolder.get; rw [hs]
    have hcopy : src.copy m = some ({ item_p := none }, m) := by
      unfold DerefHolder.copy; rw [hs]
    have hassign : dst.assign src m = some ({ item_p := none }, m.delete dst.item_p) := by
      unfold DerefHolder.assign; rw [hs]
    refine ⟨by rw [hcopy]; rfl, by rw [hassign]; rfl, ?_⟩
    intro c m1 hc
    have hcn : c = { item_p := none } := by
      rcases hc with hc | hc
      · rw [hcopy] at hc; simp at hc; exact hc.1.symm
      · rw [hassign] at hc; simp at hc; exact hc.1.symm
    subst hcn
    have hcg : ∀ m2 : Store α, ({ item_p := none } : DerefHolder).get m2 = none := fun _ => rfl
    refine ⟨⟨?_, ?_⟩, fun _ => ⟨?_, ?_, ?_, ?_⟩⟩
    · show false = src.item_p.isSome
      rw [hs]; rfl
    · rw [hcg, hsg]
    · rw [hsg, hsg]
    · intro x
      exact ⟨by rw [hsg, hsg], by rw [hcg, hsg]⟩
    · intro b x _
      rw [hsg, hsg]
    · intro b x _
      rw [hcg, hsg]
  | some a =>
    have hlive : (m.read a).isSome = true := by
      unfold DerefHolder.owns at hsrc
      rw [hs] at hsrc
      exact hsrc
    obtain ⟨w, hw⟩ := Option.isSome_iff_exists.mp hlive
    have hcopy : src.copy m
        = some ({ item_p := some m.cells.length }, (m.make_unique w).2.delete none) := by
      unfold DerefHolder.copy; rw [hs]; simp only [hw]; rfl
    have hassign : dst.assign src m
        = some ({ item_p := some m.cells.length }, (m.make_unique w).2.delete dst.item_p) := by
      unfold DerefHolder.assign; rw [hs]; simp only [hw]; rfl
    refine ⟨by rw [hcopy]; rfl, by rw [hassign]; rfl, ?_⟩
    intro c m1 hc
    have hq2 : dst.item_p ≠ some m.cells.length := by
      intro hh
      have := DerefHolder.owns_lt dst m _ hdst hh
      omega
    rcases hc with hc | hc
    · rw [hcopy] at hc
      simp only [Option.some.injEq, Prod.mk.injEq] at hc
      obtain ⟨h1, h2⟩ := hc
      subst h1; subst h2
      exact ⟨copy_value m src a w none hs hw (by simp),
        fun _ => (copy_facts m src a w none hs hw (by simp) (by simp)).2.2⟩
    · rw [hassign] at hc
      simp only [Option.some.injEq, Prod.mk.injEq] at hc
      obtain ⟨h1, h2⟩ := hc
      subst h1; subst h2
      exact ⟨copy_value m src a w dst.item_p hs hw hq2,
        fun hdisj => (copy_facts m src a w dst.item_p hs hw (fun h => hdisj a h rfl) hq2).2.2⟩

/-- C12, witness: a holder of the value 3 is copied, and copy-assigned to a
holder of the value 9. -/
theorem derefholder_copy_independent_witness :
    (({ item_p := some 0 } : DerefHolder).owns ({ cells := [some 3, some 9] } : Store Nat) = true
      ∧ ({ item_p := some 1 } : DerefHolder).owns ({ cells := [some 3, some 9] } : Store Nat) = true)
    ∧ (({ item_p := some 0 } : DerefHolder).copy ({ cells := [some 3, some 9] } : Store Nat)).isSome
        = true
    ∧ (({ item_p := some 1 } : DerefHolder).assign { item_p := some 0 }
        ({ cells := [some 3, some 9] } : Store Nat)).isSome = true
    ∧ ({ item_p := some 2 } : DerefHolder).get ({ cells := [some 3, none, some 3] } : Store Nat)
        = ({ item_p := some 0 } : DerefHolder).get ({ cells := [some 3, some 9] } : Store Nat)
    ∧ ({ item_p := some 0 } : DerefHolder).get ({ cells := [some 3, none, some 3] } : Store Nat)
        = ({ item_p := some 0 } : DerefHolder).get ({ cells := [some 3, some 9] } : Store Nat) :=
  ⟨⟨by decide, by decide⟩,
    (derefholder_copy_independent ({ cells := [some 3, some 9] } : Store Nat)
      { item_p := some 0 } { item_p := some 1 } (by decide) (by decide)).1,
    (derefholder_copy_independent ({ cells := [some 3, some 9] } : Store Nat)
      { item_p := some 0 } { item_p := some 1 } (by decide) (by decide)).2.1,
    ((derefholder_copy_independent ({ cells := [some 3, some 9] } : Store Nat)
      { item_p := some 0 } { item_p := some 1 } (by decide) (by decide)).2.2
        { item_p := some 2 } { cells := [some 3, none, some 3] } (Or.inr (by decide))).1.2,
    (((derefholder_copy_independent ({ cells := [some 3, some 9] } : Store Nat)
      { item_p := some 0 } { item_p := some 1 } (by decide) (by decide)).2.2
        { item_p := some 2 } { cells := [some 3, none, some 3] } (Or.inr (by decide))).2
        (fun a h1 h2 => by cases h1; cases h2)).1⟩

/-- C13. For the holder of an lvalue reference: after `reset(r)` with `r`
referring to the living cell `a`, `get_ptr()` is the address `a`, `get()` reads
cell `a` of whatever the store then is (nothing was copied), and so a later
write of `x` to cell `a` is observed through `get()`. For an owning holder that
was reset to the value `v` read from cell `a`, `get()` returns `v` after the
reset and still returns `v` after cell `a` is written. -/
theorem derefholder_ref_aliases {α : Type} (m : Store α) (h : DerefHolderRef) (a : Nat) (x : α)
    (ha : (m.read a).isSome = true) :
    (h.reset a).get_ptr = some a
    ∧ (∀ m2 : Store α, (h.reset a).get m2 = m2.read a)
    ∧ (h.reset a).get (m.write a x) = some x
    ∧ ∀ (o : DerefHolder) (v : α), o.owns m = true → m.read a = some v →
        (o.reset m v).1.get (o.reset m v).2 = some v
        ∧ (o.reset m v).1.get ((o.reset m v).2.write a x) = some v := by
  refine ⟨rfl, fun _ => rfl, ?_, ?_⟩
  · show (m.write a x).read a = some x
    rw [Store.read_write, if_pos ⟨rfl, ha⟩]
  · intro o v ho _
    have hlt : a < m.cells.length := Store.read_lt m a ha
    have hne : o.item_p ≠ some m.cells.length := by
      intro hh
      have := DerefHolder.owns_lt o m _ ho hh
      omega
    have h1 : (o.reset m v).2.read m.cells.length = some v := by
      rw [DerefHolder.reset_snd_read, if_neg hne, if_pos rfl]
    refine ⟨h1, ?_⟩
    show ((o.reset m v).2.write a x).read m.cells.length = some v
    rw [Store.read_write, if_neg (fun hh => by omega), h1]

/-- C13, witness: cell 0 holds 3 and is then written with 8. -/
theorem derefholder_ref_aliases_witness :
    (({ cells := [some 3] } : Store Nat).read 0).isSome = true
    ∧ (({ item_p := none } : DerefHolderRef).reset 0).get
        (({ cells := [some 3] } : Store Nat).write 0 8) = some 8
    ∧ (({ item_p := none } : DerefHolder).reset ({ cells := [some 3] } : Store Nat) 3).1.get
        ((({ item_p := none } : DerefHolder).reset ({ cells := [some 3] } : Store Nat) 3).2.write 0 8)
      = some 3 :=
  ⟨by decide,
    (derefholder_ref_aliases ({ cells := [some 3] } : Store Nat) { item_p := none } 0 8
      (by decide)).2.2.1,
    ((derefholder_ref_aliases ({ cells := [some 3] } : Store Nat) { item_p := none } 0 8
      (by decide)).2.2.2 { item_p := none } 3 (by decide) (by decide)).2⟩

/-! ## dumb_size and the unbounded advance -/

/-- With at least `end - it` loop bodies allowed, the counting loop adds the
distance from `it` to `end` to the counter, in `bits`-bit arithmetic. -/
theorem dumb_size_loop_fuel (bits fuel : Nat) (it e : Int) (d : Nat) (hle : it ≤ e)
    (hd : d < 2 ^ bits) (hf : (e - it).toNat ≤ fuel) :
    dumb_size_loop bits fuel it e d = (d + (e - it).toNat) % 2 ^ bits := by
  induction fuel generalizing it d with
  | zero =>
    have h0 : (e - it).toNat = 0 := by omega
    simp only [dumb_size_loop, h0, add_zero]
    exact (Nat.mod_eq_of_lt hd).symm
  | succ f ih =>
    simp only [dumb_size_loop]
    by_cases hne : it ≠ e
    · rw [if_pos hne, ih (it + 1) ((d + 1) % 2 ^ bits) (by omega)
        (Nat.mod_lt _ (Nat.two_pow_pos bits)) (by omega)]
      have h1 : (e - it).toNat = (e - (it + 1)).toNat + 1 := by omega
      rw [h1, Nat.mod_add_mod]
      congr 1
      omega
    · rw [if_neg hne]
      have h0 : (e - it).toNat = 0 := by omega
      rw [h0, add_zero]
      exact (Nat.mod_eq_of_lt hd).symm

/-- C14. For every sequence `c`, `dumb_size(c)` counts one per forward step
from `begin` to `end`: with a `Distance` of `bits` bits the result is the number
of elements modulo `2^bits`, hence exactly the number of elements of every
sequence whose length the `Distance` type can hold, and `0` for the empty
sequence. -/
theorem dumb_size_eq_length {α : Type} (bits : Nat) (c : List α) :
    dumb_size bits c = c.length % 2 ^ bits
    ∧ (c.length < 2 ^ bits → dumb_size bits c = c.length)
    ∧ dumb_size bits ([] : List α) = 0 := by
  have key : ∀ xs : List α, dumb_size bits xs = xs.length % 2 ^ bits := by
    intro xs
    unfold dumb_size
    rw [dumb_size_loop_fuel bits xs.length 0 xs.length 0 (Int.ofNat_nonneg _)
      (Nat.two_pow_pos bits) (by simp)]
    simp
  refine ⟨key c, fun h => ?_, ?_⟩
  · rw [key c, Nat.mod_eq_of_lt h]
  · rw [key]
    simp

/-- C14, witness: a sequence of three elements, `std::size_t` of 64 bits. -/
theorem dumb_size_eq_length_witness :
    ([10, 20, 30] : List Nat).length < 2 ^ 64 ∧ dumb_size 64 [10, 20, 30] = [10, 20, 30].length :=
  ⟨by decide, (dumb_size_eq_length 64 [10, 20, 30]).2.1 (by decide)⟩

/-- With at least `distance - i` loop bodies allowed, the unbounded advance loop
performs `max (distance - i) 0` increments. -/
theorem dumb_advance_unbounded_loop_fuel (fuel : Nat) (i d p : Int) (n : Nat)
    (hf : (d - i).toNat ≤ fuel) :
    dumb_advance_unbounded_loop fuel i d p n = (p + max (d - i) 0, n + (d - i).toNat) := by
  induction fuel generalizing i p n with
  | zero =>
    have h0 : (d - i).toNat = 0 := by omega
    simp only [dumb_advance_unbounded_loop, h0, add_zero, Prod.mk.injEq, and_true]
    omega
  | succ f ih =>
    simp only [dumb_advance_unbounded_loop]
    by_cases hc : i < d
    · rw [if_pos hc, ih (i + 1) (p + 1) (n + 1) (by omega)]
      simp only [Prod.mk.injEq]
      constructor <;> omega
    · rw [if_neg hc]
      simp only [Prod.mk.injEq]
      constructor <;> omega

theorem dumb_advance_unbounded_eq (p d : Int) :
    dumb_advance_unbounded p d = (p + max d 0, d.toNat) := by
  unfold dumb_advance_unbounded
  rw [dumb_advance_unbounded_loop_fuel _ 0 d p 0 (by simp)]
  simp

/-- C16. For every position `p` and every distance `d >= 0`, the unbounded
`dumb_advance(iter, d)` performs exactly `d` increments and leaves the iterator
at `p + d`, and `dumb_next(it, d)` returns `p + d` while the caller's iterator
stays at `p`; for `d <= 0` no increment is performed and the position stays `p`. -/
theorem dumb_advance_unbounded_exact (p d : Int) :
    (0 ≤ d →
      (dumb_advance_unbounded p d).1 = p + d
      ∧ ((dumb_advance_unbounded p d).2 : Int) = d
      ∧ dumb_next p d = (p + d, p))
    ∧ (d ≤ 0 →
      (dumb_advance_unbounded p d).1 = p
      ∧ (dumb_advance_unbounded p d).2 = 0
      ∧ dumb_next p d = (p, p)) := by
  unfold dumb_next
  rw [dumb_advance_unbounded_eq]
  simp only [Prod.mk.injEq, and_true]
  constructor
  · intro h
    refine ⟨?_, ?_, ?_⟩ <;> omega
  · intro h
    refine ⟨?_, ?_, ?_⟩ <;> omega

/-- C16, witness: position 2, distance 3. -/
theorem dumb_advance_unbounded_exact_witness :
    (0 : Int) ≤ 3
    ∧ (dumb_advance_unbounded 2 3).1 = 2 + 3
    ∧ ((dumb_advance_unbounded 2 3).2 : Int) = 3
    ∧ dumb_next 2 3 = (2 + 3, 2) :=
  ⟨by decide, (dumb_advance_unbounded_exact 2 3).1 (by decide)⟩

/-! ## Reachable iterator states of a view -/

theorem incrN_clampedState (bits : Nat) (ra : Bool) (len stop step : Int) (hs : 0 ≤ step)
    (hstop : -half_range bits ≤ stop) (hov : stop + step < half_range bits) (N : Nat)
    (u x : Int) (hra : ra = true → len - u < half_range bits) (hx : -half_range bits ≤ x) :
    Iterator.incrN bits ra N (clampedState len stop step u x)
      = clampedState len stop step (u + (N : Int) * step) (x + (N : Int) * step) := by
  induction N generalizing u x with
  | zero => simp [Iterator.incrN]
  | succ n ih =>
    simp only [Iterator.incrN]
    rw [incr_clampedState bits ra len stop step u x hs hra hx hstop hov,
      ih (u + step) (x + step) (fun h => by have := hra h; omega) (by omega)]
    congr 1 <;> (push_cast; ring)

/-- Every state reached from `begin()` of a view with a positive step, where
nothing leaves the range of the distance type: the underlying position is
`b + N*step` clamped at the length, the logical position `s + N*step` clamped at
`stop`, with `s` the view's start and `b` the offset `begin()` starts from. -/
theorem incrN_begin {α : Type} (bits : Nat) (ra : Bool) (xs : List α) (start stop step : Int)
    (hs : 0 < step) (hstart : fits bits start) (hstop : fits bits stop)
    (hov : stop + step < half_range bits)
    (hlen : ra = true →
      (xs.length : Int) - min (slice xs start stop step).start 0 < half_range bits)
    (N : Nat) :
    Iterator.incrN bits ra N ((slice xs start stop step).begin bits ra)
      = clampedState xs.length stop step
          (beginOffset ra (slice xs start stop step).start + (N : Int) * step)
          ((slice xs start stop step).start + (N : Int) * step) := by
  have hle : (slice xs start stop step).start ≤ (slice xs start stop step).stop :=
    Slice.ctor_start_le_stop xs start stop step
  rw [begin_eq_clampedState bits ra _ hle
    (fun h => by have := hlen h; show (xs.length : Int) < _; omega)]
  exact incrN_clampedState bits ra xs.length stop step (le_of_lt hs) hstop.1 hov N _ _
    (fun h => by
      have := hlen h
      subst h
      simp only [beginOffset, if_true]
      omega)
    (slice_start_fits bits xs start stop step hstart hstop).1

theorem Iterator.eq_iff (a b : Iterator) :
    a.eq b = true ↔ (a.sub_iter = b.sub_iter ∨ a.current = b.current) := by
  unfold Iterator.eq Iterator.ne
  simp only [Bool.not_eq_true', Bool.and_eq_false_iff, bne_eq_false_iff_eq]

theorem Iterator.ne_iff (a b : Iterator) :
    a.ne b = true ↔ (a.sub_iter ≠ b.sub_iter ∧ a.current ≠ b.current) := by
  unfold Iterator.ne
  simp

/-- C15, at a sequence longer than `DifferenceType` can hold: with an 8-bit
`DifferenceType` on a random-access sequence of 200 elements,
`slice(seq, 0, 10, 1)` has effective start 0, yet `begin()` has underlying
position 200, the true end, not `min(0, 200) = 0`: the advance by 0 compares
`static_cast<Distance>(200) = -56` with 0 and sets the iterator to the end. On
the forward-only sequence `begin()` is at 0. -/
theorem begin_random_access_truncates :
    (fits 8 0 ∧ fits 8 10 ∧ fits 8 1 ∧ (0 : Int) ≤ (slice (List.range 200) 0 10 1).start)
    ∧ (slice (List.range 200) 0 10 1).start = 0
    ∧ ((slice (List.range 200) 0 10 1).begin 8 true).sub_iter = 200
    ∧ min (slice (List.range 200) 0 10 1).start (((List.range 200).length : Nat) : Int) = 0
    ∧ ((slice (List.range 200) 0 10 1).begin 8 false).sub_iter = 0 := by
  decide

/-- The positions of `begin()` and `end()` on a forward-only sequence, or on a
random-access sequence whose length is a value of `DifferenceType`, for an
effective start `s >= 0`: `begin()` has underlying position `min(s, L)`, which
is the true end `L` when `s >= L`, and logical position `s`; `end()` has
underlying position `L` and logical position `stop`. -/
theorem begin_end_positions {α : Type} (bits : Nat) (ra : Bool) (xs : List α)
    (start stop step : Int)
    (hlen : ra = true → (xs.length : Int) < half_range bits)
    (h : 0 ≤ (slice xs start stop step).start) :
    (slice xs start stop step).start = (if start < stop ∧ step > 0 then start else stop)
    ∧ ((slice xs start stop step).begin bits ra).sub_iter
        = min (slice xs start stop step).start (xs.length : Int)
    ∧ ((xs.length : Int) ≤ (slice xs start stop step).start →
        ((slice xs start stop step).begin bits ra).sub_iter = (xs.length : Int))
    ∧ ((slice xs start stop step).begin bits ra).current = (slice xs start stop step).start
    ∧ (slice xs start stop step).end_.sub_iter = (xs.length : Int)
    ∧ (slice xs start stop step).end_.current = stop := by
  have hle : (slice xs start stop step).start ≤ (slice xs start stop step).stop :=
    Slice.ctor_start_le_stop xs start stop step
  have hb : beginOffset ra (slice xs start stop step).start = (slice xs start stop step).start := by
    unfold beginOffset
    split <;> omega
  have hsub : ((slice xs start stop step).begin bits ra).sub_iter
      = min (slice xs start stop step).start (xs.length : Int) := by
    rw [begin_eq_clampedState bits ra _ hle hlen, hb]
    rfl
  refine ⟨rfl, hsub, fun hge => ?_, rfl, rfl, rfl⟩
  rw [hsub]
  omega

/-- C17, as stated, fails on a forward-only sequence when `stop` is negative:
for `slice(seq, 0, -3, 1)` over five elements (32-bit `DifferenceType`) the
effective start is `-3`, the bounded advance by `-3` performs no step, and
`begin()` has underlying position `0`, not `min(-3 + 0*1, 5) = -3`. It also
fails where the arithmetic leaves the 8-bit distance type: on a random-access
sequence of 200 elements `slice(seq, 0, 10, 1)` has `begin()` at underlying
position 200, not `min(0, 200)`, and `slice(seq, 126, 127, 2)` has logical
position -128 after one increment, not `min(128, 127)`. -/
theorem forward_begin_negative_effective_start :
    ((0 : Int) ≤ 0 ∧ (0 : Int) < 1 ∧ fits 32 0 ∧ fits 32 (-3) ∧ fits 32 1)
    ∧ (slice [0, 1, 2, 3, 4] 0 (-3) 1).start = -3
    ∧ (Iterator.incrN 32 false 0 ((slice [0, 1, 2, 3, 4] 0 (-3) 1).begin 32 false)).sub_iter = 0
    ∧ ¬ ((Iterator.incrN 32 false 0 ((slice [0, 1, 2, 3, 4] 0 (-3) 1).begin 32 false)).sub_iter
          = min ((slice [0, 1, 2, 3, 4] 0 (-3) 1).start + ((0 : Nat) : Int) * 1)
              (([0, 1, 2, 3, 4] : List Nat).length : Int))
    ∧ ¬ ((Iterator.incrN 8 true 0 ((slice (List.range 200) 0 10 1).begin 8 true)).sub_iter
          = min ((slice (List.range 200) 0 10 1).start + ((0 : Nat) : Int) * 1)
              ((List.range 200).length : Int))
    ∧ ¬ ((Iterator.incrN 8 false 1 ((slice (List.range 130) 126 127 2).begin 8 false)).current
          = min ((slice (List.range 130) 126 127 2).start + ((1 : Nat) : Int) * 2) 127) := by
  decide

/-- C17, amended. For every view with `0 <= start` and `step > 0` over a
sequence of length `L`, where `stop + step` is representable in
`DifferenceType` and, on a random-access sequence, so is the distance from the
position `begin()` starts at to the true end: every state reached from
`begin()` by `N` increments has logical position `min(x, stop)` for
`x = s + N*step`, with `s` the effective start, and underlying position
`min(b + N*step, L)`, where `b` is `s` on a random-access sequence and
`max(s, 0)` on a forward-only one, so that the underlying position is
`min(x, L)` on a random-access sequence and whenever `s >= 0`; hence whenever
such a state compares unequal to `end()`, its underlying position equals its
logical position and is strictly below `min(stop, L)`. -/
theorem reachable_state_invariant {α : Type} (bits : Nat) (ra : Bool) (xs : List α)
    (start stop step : Int) (hstart : fits bits start) (hstop : fits bits stop)
    (hov : stop + step < half_range bits)
    (hlen : ra = true →
      (xs.length : Int) - min (slice xs start stop step).start 0 < half_range bits)
    (h0 : 0 ≤ start) (hs : 0 < step) (N : Nat) :
    (Iterator.incrN bits ra N ((slice xs start stop step).begin bits ra)).current
        = min ((slice xs start stop step).start + (N : Int) * step) stop
    ∧ (Iterator.incrN bits ra N ((slice xs start stop step).begin bits ra)).sub_iter
        = min (beginOffset ra (slice xs start stop step).start + (N : Int) * step)
            (xs.length : Int)
    ∧ ((ra = true ∨ 0 ≤ (slice xs start stop step).start) →
        (Iterator.incrN bits ra N ((slice xs start stop step).begin bits ra)).sub_iter
          = min ((slice xs start stop step).start + (N : Int) * step) (xs.length : Int))
    ∧ ((Iterator.incrN bits ra N ((slice xs start stop step).begin bits ra)).ne
          (slice xs start stop step).end_ = true →
        (Iterator.incrN bits ra N ((slice xs start stop step).begin bits ra)).sub_iter
          = (Iterator.incrN bits ra N ((slice xs start stop step).begin bits ra)).current
        ∧ (Iterator.incrN bits ra N ((slice xs start stop step).begin bits ra)).sub_iter
          < min stop (xs.length : Int)) := by
  rw [incrN_begin bits ra xs start stop step hs hstart hstop hov hlen N, slice_end_eq]
  have hmul := mul_step_nonneg N step (le_of_lt hs)
  refine ⟨rfl, rfl, fun hb => ?_, fun hne => ?_⟩
  · have hbo : beginOffset ra (slice xs start stop step).start
        = (slice xs start stop step).start := by
      unfold beginOffset
      rcases hb with hb | hb
      · rw [hb]; rfl
      · split
        · rfl
        · omega
    rw [hbo]
    rfl
  · rw [ne_clampedState] at hne
    by_cases hlt : start < stop
    · have hst : (slice xs start stop step).start = start := by
        rw [slice_start, if_pos ⟨hlt, hs⟩]
      have hbo : beginOffset ra start = start := by
        unfold beginOffset; split <;> omega
      rw [hst, hbo] at hne ⊢
      simp only [clampedState]
      omega
    · exfalso
      have hst : (slice xs start stop step).start = stop := by
        rw [slice_start, if_neg (fun hh => hlt hh.1)]
      rw [hst] at hne
      omega

/-- C17 amended, witness: `slice([0..9], 2, 8, 2)`, one increment, 32-bit
`DifferenceType`. -/
theorem reachable_state_invariant_witness :
    (fits 32 2 ∧ fits 32 8 ∧ (8 : Int) + 2 < half_range 32
      ∧ (([0, 1, 2, 3, 4, 5, 6, 7, 8, 9] : List Nat).length : Int)
          - min (slice [0, 1, 2, 3, 4, 5, 6, 7, 8, 9] 2 8 2).start 0 < half_range 32
      ∧ (0 : Int) ≤ 2 ∧ (0 : Int) < 2)
    ∧ (Iterator.incrN 32 true 1 ((slice [0, 1, 2, 3, 4, 5, 6, 7, 8, 9] 2 8 2).begin 32 true)).current
        = min ((slice [0, 1, 2, 3, 4, 5, 6, 7, 8, 9] 2 8 2).start + ((1 : Nat) : Int) * 2) 8
    ∧ (Iterator.incrN 32 true 1 ((slice [0, 1, 2, 3, 4, 5, 6, 7, 8, 9] 2 8 2).begin 32 true)).sub_iter
        = min (beginOffset true (slice [0, 1, 2, 3, 4, 5, 6, 7, 8, 9] 2 8 2).start
            + ((1 : Nat) : Int) * 2)
          (([0, 1, 2, 3, 4, 5, 6, 7, 8, 9] : List Nat).length : Int) :=
  ⟨by decide,
    (reachable_state_invariant 32 true [0, 1, 2, 3, 4, 5, 6, 7, 8, 9] 2 8 2 (by decide) (by decide)
      (by decide) (fun _ => by decide) (by decide) (by decide) 1).1,
    (reachable_state_invariant 32 true [0, 1, 2, 3, 4, 5, 6, 7, 8, 9] 2 8 2 (by decide) (by decide)
      (by decide) (fun _ => by decide) (by decide) (by decide) 1).2.1⟩

theorem incrN_add (bits : Nat) (ra : Bool) (n m : Nat) (it : Iterator) :
    Iterator.incrN bits ra (n + m) it = Iterator.incrN bits ra m (Iterator.incrN bits ra n it) := by
  induction n generalizing it with
  | zero => simp [Iterator.incrN]
  | succ k ih =>
    have e : k + 1 + m = (k + m) + 1 := by omega
    rw [e]
    simp only [Iterator.incrN]
    exact ih (it.incr bits ra)

/-- How `m` increments move a state whose positions are at or before the true
end and `stop`, with a positive step and `stop + step` in the range of the
distance type, whatever the category and the length: both positions stay at or
before their bounds, neither decreases, a position at its bound stays there,
and a position that did not move over `m > 0` increments is at its bound. -/
theorem incrN_mono (bits : Nat) (ra : Bool) (m : Nat) (it : Iterator)
    (h1 : it.sub_iter ≤ it.sub_end) (h2 : it.current ≤ it.stop)
    (h3 : -half_range bits ≤ it.current) (hs : 0 < it.step)
    (hov : it.stop + it.step < half_range bits) :
    ((Iterator.incrN bits ra m it).sub_end = it.sub_end
      ∧ (Iterator.incrN bits ra m it).stop = it.stop
      ∧ (Iterator.incrN bits ra m it).step = it.step)
    ∧ ((Iterator.incrN bits ra m it).sub_iter ≤ it.sub_end
      ∧ (Iterator.incrN bits ra m it).current ≤ it.stop
      ∧ it.sub_iter ≤ (Iterator.incrN bits ra m it).sub_iter
      ∧ it.current ≤ (Iterator.incrN bits ra m it).current)
    ∧ ((it.sub_iter = it.sub_end → (Iterator.incrN bits ra m it).sub_iter = it.sub_end)
      ∧ (it.current = it.stop → (Iterator.incrN bits ra m it).current = it.stop))
    ∧ ((0 < m → (Iterator.incrN bits ra m it).sub_iter = it.sub_iter →
          it.sub_iter = it.sub_end)
      ∧ (0 < m → (Iterator.incrN bits ra m it).current = it.current →
          it.current = it.stop)) := by
  induction m generalizing it with
  | zero =>
    have e : Iterator.incrN bits ra 0 it = it := rfl
    rw [e]
    refine ⟨⟨rfl, rfl, rfl⟩, ⟨h1, h2, le_refl _, le_refl _⟩, ⟨fun h => h, fun h => h⟩,
      ⟨fun h => absurd h (by omega), fun h => absurd h (by omega)⟩⟩
  | succ k ih =>
    have hstep := incr_sub_step bits ra it h1 (le_of_lt hs)
    have hcur := incr_current_eq bits ra it h2 h3 (le_of_lt hs) hov
    have e1 : (it.incr bits ra).sub_end = it.sub_end := rfl
    have e2 : (it.incr bits ra).stop = it.stop := rfl
    have e3 : (it.incr bits ra).step = it.step := rfl
    obtain ⟨⟨a1, a2, a3⟩, ⟨b1, b2, b3, b4⟩, ⟨c1, c2⟩, ⟨d1, d2⟩⟩ :=
      ih (it.incr bits ra) (by rw [e1]; exact hstep.2) (by rw [e2, hcur]; omega)
        (by rw [hcur]; omega) (by rw [e3]; exact hs) (by rw [e2, e3]; exact hov)
    have e : Iterator.incrN bits ra (k + 1) it = Iterator.incrN bits ra k (it.incr bits ra) := rfl
    rw [e]
    rw [e1] at a1 b1 c1
    rw [e2] at a2 b2 c2
    rw [e3] at a3
    rw [hcur] at b4 c2 d2
    refine ⟨⟨a1, a2, a3⟩, ⟨b1, b2, by omega, by omega⟩, ⟨fun h => ?_, fun h => ?_⟩,
      ⟨fun _ h => ?_, fun _ h => ?_⟩⟩
    · exact c1 (by omega)
    · exact c2 (by omega)
    · omega
    · omega

/-- The state of `begin()` of any view, as `incrN_mono` needs it. -/
theorem begin_bounds {α : Type} (bits : Nat) (ra : Bool) (xs : List α) (start stop step : Int)
    (hstart : fits bits start) (hstop : fits bits stop) :
    ((slice xs start stop step).begin bits ra).sub_iter
        ≤ ((slice xs start stop step).begin bits ra).sub_end
    ∧ ((slice xs start stop step).begin bits ra).current
        ≤ ((slice xs start stop step).begin bits ra).stop
    ∧ -half_range bits ≤ ((slice xs start stop step).begin bits ra).current :=
  ⟨begin_sub_le bits ra _, Slice.ctor_start_le_stop xs start stop step,
    (slice_start_fits bits xs start stop step hstart hstop).1⟩

/-- C18, as stated, fails once `current` has left the range of the distance
type: with an
8-bit `DifferenceType` on a forward-only sequence of 130 elements and
`slice(seq, 125, 127, 2)`, the state after one increment (underlying 127,
logical 127) equals `end()` by its logical position, `end()` equals the state
after three increments (underlying 130, logical -125) by its underlying
position, yet these two states are unequal. -/
theorem slice_eq_not_transitive_after_wrap :
    (fits 8 125 ∧ fits 8 127 ∧ fits 8 2 ∧ (0 : Int) < 2)
    ∧ (Iterator.incrN 8 false 1 ((slice (List.range 130) 125 127 2).begin 8 false)).eq
        (slice (List.range 130) 125 127 2).end_ = true
    ∧ (slice (List.range 130) 125 127 2).end_.eq
        (Iterator.incrN 8 false 3 ((slice (List.range 130) 125 127 2).begin 8 false)) = true
    ∧ (Iterator.incrN 8 false 1 ((slice (List.range 130) 125 127 2).begin 8 false)).eq
        (Iterator.incrN 8 false 3 ((slice (List.range 130) 125 127 2).begin 8 false)) = false := by
  decide

/-- Two states of a view, `m` increments apart: they compare equal exactly when
they agree in both positions or both have reached a bound. -/
theorem eq_states_apart {α : Type} (bits : Nat) (ra : Bool) (xs : List α)
    (start stop step : Int) (hstart : fits bits start) (hstop : fits bits stop)
    (hs : 0 < step) (hov : stop + step < half_range bits) (i m : Nat) (x y : Iterator)
    (hx : x = Iterator.incrN bits ra i ((slice xs start stop step).begin bits ra))
    (hy : y = Iterator.incrN bits ra (i + m) ((slice xs start stop step).begin bits ra)) :
    ((x.sub_iter = y.sub_iter ∨ x.current = y.current)
      ↔ ((x.sub_iter = y.sub_iter ∧ x.current = y.current)
        ∨ ((x.sub_iter = (xs.length : Int) ∨ x.current = stop)
          ∧ (y.sub_iter = (xs.length : Int) ∨ y.current = stop)))) := by
  obtain ⟨g1, g2, g3⟩ := begin_bounds bits ra xs start stop step hstart hstop
  have hb := incrN_mono bits ra i ((slice xs start stop step).begin bits ra) g1 g2 g3 hs hov
  rw [← hx] at hb
  obtain ⟨⟨a1, a2, a3⟩, ⟨b1, b2, _, b4⟩, _, _⟩ := hb
  have e1 : ((slice xs start stop step).begin bits ra).sub_end = (xs.length : Int) := rfl
  have e2 : ((slice xs start stop step).begin bits ra).stop = stop := rfl
  have e3 : ((slice xs start stop step).begin bits ra).step = step := rfl
  rw [e1] at a1 b1
  rw [e2] at a2 b2
  rw [e3] at a3
  have hy2 : y = Iterator.incrN bits ra m x := by
    rw [hy, hx, incrN_add]
  have hm := incrN_mono bits ra m x (by rw [a1]; exact b1) (by rw [a2]; exact b2)
    (by omega) (by rw [a3]; exact hs) (by rw [a2, a3]; exact hov)
  rw [← hy2, a1, a2] at hm
  obtain ⟨_, ⟨c1, c2, c3, c4⟩, ⟨d1, d2⟩, ⟨f1, f2⟩⟩ := hm
  rcases Nat.eq_zero_or_pos m with hm0 | hm0
  · subst hm0
    have : y = x := hy2
    subst this
    constructor
    · intro _
      exact Or.inl ⟨rfl, rfl⟩
    · intro _
      exact Or.inl rfl
  · have f1' := f1 hm0
    have f2' := f2 hm0
    constructor
    · intro h
      rcases h with h | h
      · have := f1' h.symm
        exact Or.inr ⟨Or.inl this, Or.inl (d1 this)⟩
      · have := f2' h.symm
        exact Or.inr ⟨Or.inr this, Or.inr (d2 this)⟩
    · intro h
      rcases h with h | ⟨h, _⟩
      · exact Or.inl h.1
      · rcases h with h | h
        · exact Or.inl (by rw [d1 h, h])
        · exact Or.inr (by rw [d2 h, h])

/-- Any two of `end()` and the states reached from `begin()`: they compare
equal exactly when they agree in both positions or both have reached a bound. -/
theorem eq_reachable {α : Type} (bits : Nat) (ra : Bool) (xs : List α)
    (start stop step : Int) (hstart : fits bits start) (hstop : fits bits stop)
    (hs : 0 < step) (hov : stop + step < half_range bits) (x y : Iterator)
    (hx : (slice xs start stop step).reachable bits ra x)
    (hy : (slice xs start stop step).reachable bits ra y) :
    ((x.sub_iter = y.sub_iter ∨ x.current = y.current)
      ↔ ((x.sub_iter = y.sub_iter ∧ x.current = y.current)
        ∨ ((x.sub_iter = (xs.length : Int) ∨ x.current = stop)
          ∧ (y.sub_iter = (xs.length : Int) ∨ y.current = stop)))) := by
  have he1 : (slice xs start stop step).end_.sub_iter = (xs.length : Int) := rfl
  have he2 : (slice xs start stop step).end_.current = stop := rfl
  rcases hx with hx | ⟨i, hx⟩ <;> rcases hy with hy | ⟨j, hy⟩
  · subst hx; subst hy
    rw [he1, he2]
    constructor
    · intro _; exact Or.inl ⟨rfl, rfl⟩
    · intro _; exact Or.inl rfl
  · subst hx
    rw [he1, he2]
    constructor
    · intro h
      exact Or.inr ⟨Or.inl rfl, by rcases h with h | h
                                   · exact Or.inl h.symm
                                   · exact Or.inr h.symm⟩
    · intro h
      rcases h with h | ⟨_, h⟩
      · exact Or.inl h.1
      · rcases h with h | h
        · exact Or.inl h.symm
        · exact Or.inr h.symm
  · subst hy
    rw [he1, he2]
    constructor
    · intro h
      exact Or.inr ⟨h, Or.inl rfl⟩
    · intro h
      rcases h with h | ⟨h, _⟩
      · exact Or.inl h.1
      · exact h
  · rcases Nat.le_total i j with hij | hij
    · obtain ⟨m, rfl⟩ := Nat.exists_eq_add_of_le hij
      exact eq_states_apart bits ra xs start stop step hstart hstop hs hov i m x y hx hy
    · obtain ⟨m, rfl⟩ := Nat.exists_eq_add_of_le hij
      have h := eq_states_apart bits ra xs start stop step hstart hstop hs hov j m y x hy hx
      constructor
      · intro h1
        have h2 := h.1 (by rcases h1 with h1 | h1
                           · exact Or.inl h1.symm
                           · exact Or.inr h1.symm)
        rcases h2 with h2 | h2
        · exact Or.inl ⟨h2.1.symm, h2.2.symm⟩
        · exact Or.inr ⟨h2.2, h2.1⟩
      · intro h1
        have h2 := h.2 (by rcases h1 with h1 | h1
                           · exact Or.inl ⟨h1.1.symm, h1.2.symm⟩
                           · exact Or.inr ⟨h1.2, h1.1⟩)
        rcases h2 with h2 | h2
        · exact Or.inl h2.symm
        · exact Or.inr h2.symm

/-- C18, amended. `operator==` is not transitive on arbitrary iterator states,
but for every view with `step > 0` and `stop + step` representable in
`DifferenceType`, on either iterator category and whatever the length, it is
reflexive, symmetric and transitive on `end()` together with all states reached
from `begin()` by increments of that view. -/
theorem slice_eq_equivalence {α : Type} (bits : Nat) (ra : Bool) (xs : List α)
    (start stop step : Int) (hstart : fits bits start) (hstop : fits bits stop)
    (hs : 0 < step) (hov : stop + step < half_range bits) :
    (∃ a b c : Iterator, a.eq b = true ∧ b.eq c = true ∧ a.eq c = false)
    ∧ ∀ a b c : Iterator,
        (slice xs start stop step).reachable bits ra a →
        (slice xs start stop step).reachable bits ra b →
        (slice xs start stop step).reachable bits ra c →
        a.eq a = true
        ∧ (a.eq b = true → b.eq a = true)
        ∧ (a.eq b = true → b.eq c = true → a.eq c = true) := by
  constructor
  · exact ⟨⟨0, 5, 0, 5, 1⟩, ⟨0, 5, 1, 5, 1⟩, ⟨1, 5, 1, 5, 1⟩, by decide, by decide, by decide⟩
  · intro a b c ha hb hc
    have pab := eq_reachable bits ra xs start stop step hstart hstop hs hov a b ha hb
    have pbc := eq_reachable bits ra xs start stop step hstart hstop hs hov b c hb hc
    have pac := eq_reachable bits ra xs start stop step hstart hstop hs hov a c ha hc
    refine ⟨?_, ?_, ?_⟩
    · rw [Iterator.eq_iff]
      exact Or.inl rfl
    · rw [Iterator.eq_iff, Iterator.eq_iff]
      intro h
      rcases h with h | h
      · exact Or.inl h.symm
      · exact Or.inr h.symm
    · rw [Iterator.eq_iff, Iterator.eq_iff, Iterator.eq_iff]
      intro hab hbc
      have qab := pab.1 hab
      have qbc := pbc.1 hbc
      apply pac.2
      omega

/-- C18 amended, witness: `slice([0..9], 2, 8, 2)`, 32-bit `DifferenceType`: the
state after three increments (8, 8) equals `end()` (10, 8), `end()` equals the
state after four increments (10, 8), and so the two states are equal. -/
theorem slice_eq_equivalence_witness :
    (fits 32 2 ∧ fits 32 8 ∧ (0 : Int) < 2 ∧ (8 : Int) + 2 < half_range 32)
    ∧ ((Iterator.incrN 32 true 3 ((slice [0, 1, 2, 3, 4, 5, 6, 7, 8, 9] 2 8 2).begin 32 true)).eq
          (slice [0, 1, 2, 3, 4, 5, 6, 7, 8, 9] 2 8 2).end_ = true
      ∧ (slice [0, 1, 2, 3, 4, 5, 6, 7, 8, 9] 2 8 2).end_.eq
          (Iterator.incrN 32 true 4 ((slice [0, 1, 2, 3, 4, 5, 6, 7, 8, 9] 2 8 2).begin 32 true))
          = true)
    ∧ (Iterator.incrN 32 true 3 ((slice [0, 1, 2, 3, 4, 5, 6, 7, 8, 9] 2 8 2).begin 32 true)).eq
        (Iterator.incrN 32 true 4 ((slice [0, 1, 2, 3, 4, 5, 6, 7, 8, 9] 2 8 2).begin 32 true))
        = true :=
  ⟨by decide, by decide,
    ((slice_eq_equivalence 32 true [0, 1, 2, 3, 4, 5, 6, 7, 8, 9] 2 8 2 (by decide) (by decide)
        (by decide) (by decide)).2
      (Iterator.incrN 32 true 3 ((slice [0, 1, 2, 3, 4, 5, 6, 7, 8, 9] 2 8 2).begin 32 true))
      (slice [0, 1, 2, 3, 4, 5, 6, 7, 8, 9] 2 8 2).end_
      (Iterator.incrN 32 true 4 ((slice [0, 1, 2, 3, 4, 5, 6, 7, 8, 9] 2 8 2).begin 32 true))
      (Or.inr ⟨3, rfl⟩) (Or.inl rfl) (Or.inr ⟨4, rfl⟩)).2.2 (by decide) (by decide)⟩

/-- C19. For every sequence, on either iterator category, and every `start`
and `stop`, a view built with `step <= 0` is empty: the constructor stores
`stop` as the start, `begin()` and `end()` have the same logical position,
`begin() == end()` holds before any increment, and the loop over the view
finishes at once, for every bound on its length, without yielding an element. -/
theorem slice_empty_of_nonpositive_step {α : Type} (bits : Nat) (ra : Bool) (xs : List α)
    (start stop step : Int) (hs : step ≤ 0) :
    (slice xs start stop step).start = stop
    ∧ ((slice xs start stop step).begin bits ra).current = (slice xs start stop step).end_.current
    ∧ ((slice xs start stop step).begin bits ra).eq (slice xs start stop step).end_ = true
    ∧ (slice xs start stop step).yields bits ra = some []
    ∧ ∀ fuel : Nat,
        rangeFor bits ra fuel ((slice xs start stop step).begin bits ra)
            (slice xs start stop step).end_ = some []
        ∧ incrementsToEnd bits ra fuel ((slice xs start stop step).begin bits ra)
            (slice xs start stop step).end_ = some 0 := by
  have hst : (slice xs start stop step).start = stop := by
    rw [slice_start, if_neg (fun hh => by omega)]
  have hcur : ((slice xs start stop step).begin bits ra).current
      = (slice xs start stop step).end_.current := hst
  have hne := ne_of_current_eq _ _ hcur
  refine ⟨hst, hcur, ?_, ?_, fun fuel => ⟨rangeFor_of_current_eq bits ra fuel _ _ hcur, ?_⟩⟩
  · unfold Iterator.eq
    rw [hne]
    rfl
  · rw [slice_yields_eq, rangeFor_of_current_eq bits ra _ _ _ hcur]
    rfl
  · cases fuel <;> simp [incrementsToEnd, hne]

/-- C19, witness: `slice([0..4], 0, 3, -1)` and `slice([0..4], 4, 0, -1)`. -/
theorem slice_empty_of_nonpositive_step_witness :
    (-1 : Int) ≤ 0
    ∧ (slice [0, 1, 2, 3, 4] 0 3 (-1)).yields 32 true = some []
    ∧ (slice [0, 1, 2, 3, 4] 4 0 (-1)).yields 32 false = some [] :=
  ⟨by decide,
    (slice_empty_of_nonpositive_step 32 true [0, 1, 2, 3, 4] 0 3 (-1) (by decide)).2.2.2.1,
    (slice_empty_of_nonpositive_step 32 false [0, 1, 2, 3, 4] 4 0 (-1) (by decide)).2.2.2.1⟩

/-- C20, as stated, fails once `current` has left the range of the distance
type: with an
8-bit `DifferenceType` on a forward-only sequence of 130 elements and
`slice(seq, 125, 127, 2)`, the state after one increment equals `end()`
(logical position 127 = `stop`), but after one more increment the logical
position is 129 reduced to -127, which is not beyond `stop`, the underlying
position is 129, and the state is unequal to `end()`; the logical position has
decreased. -/
theorem end_state_left_after_wrap :
    (fits 8 125 ∧ fits 8 127 ∧ fits 8 2 ∧ (0 : Int) < 2)
    ∧ (Iterator.incrN 8 false 1 ((slice (List.range 130) 125 127 2).begin 8 false)).eq
        (slice (List.range 130) 125 127 2).end_ = true
    ∧ (Iterator.incrN 8 false (1 + 1) ((slice (List.range 130) 125 127 2).begin 8 false)).eq
        (slice (List.range 130) 125 127 2).end_ = false
    ∧ (Iterator.incrN 8 false 1 ((slice (List.range 130) 125 127 2).begin 8 false)).current = 127
    ∧ (Iterator.incrN 8 false (1 + 1) ((slice (List.range 130) 125 127 2).begin 8 false)).current
        = -127
    ∧ (Iterator.incrN 8 false (1 + 1) ((slice (List.range 130) 125 127 2).begin 8 false)).sub_iter
        = 129 := by
  decide

/-- C20, amended. For every view with `step > 0` and `stop + step`
representable in `DifferenceType`, on either iterator category and whatever the
length: if the
state reached from `begin()` by `N` increments compares equal to `end()`, then
after any `M` further increments the state still compares equal to `end()`, its
underlying position is `<=` the true end and its logical position is `<= stop`;
and neither position has decreased. -/
theorem end_state_absorbing {α : Type} (bits : Nat) (ra : Bool) (xs : List α)
    (start stop step : Int) (hstart : fits bits start) (hstop : fits bits stop)
    (hs : 0 < step) (hov : stop + step < half_range bits) (N M : Nat)
    (heq : (Iterator.incrN bits ra N ((slice xs start stop step).begin bits ra)).eq
        (slice xs start stop step).end_ = true) :
    (Iterator.incrN bits ra (N + M) ((slice xs start stop step).begin bits ra)).eq
        (slice xs start stop step).end_ = true
    ∧ (Iterator.incrN bits ra (N + M) ((slice xs start stop step).begin bits ra)).sub_iter
        ≤ (xs.length : Int)
    ∧ (Iterator.incrN bits ra (N + M) ((slice xs start stop step).begin bits ra)).current ≤ stop
    ∧ (Iterator.incrN bits ra N ((slice xs start stop step).begin bits ra)).sub_iter
        ≤ (Iterator.incrN bits ra (N + M) ((slice xs start stop step).begin bits ra)).sub_iter
    ∧ (Iterator.incrN bits ra N ((slice xs start stop step).begin bits ra)).current
        ≤ (Iterator.incrN bits ra (N + M) ((slice xs start stop step).begin bits ra)).current := by
  obtain ⟨g1, g2, g3⟩ := begin_bounds bits ra xs start stop step hstart hstop
  obtain ⟨⟨a1, a2, a3⟩, ⟨b1, b2, _, b4⟩, _, _⟩ :=
    incrN_mono bits ra N ((slice xs start stop step).begin bits ra) g1 g2 g3 hs hov
  have e1 : ((slice xs start stop step).begin bits ra).sub_end = (xs.length : Int) := rfl
  have e2 : ((slice xs start stop step).begin bits ra).stop = stop := rfl
  have e3 : ((slice xs start stop step).begin bits ra).step = step := rfl
  rw [e1] at a1 b1
  rw [e2] at a2 b2
  rw [e3] at a3
  have hm := incrN_mono bits ra M
    (Iterator.incrN bits ra N ((slice xs start stop step).begin bits ra))
    (by rw [a1]; exact b1) (by rw [a2]; exact b2) (by omega) (by rw [a3]; exact hs)
    (by rw [a2, a3]; exact hov)
  rw [← incrN_add, a1, a2] at hm
  obtain ⟨_, ⟨c1, c2, c3, c4⟩, ⟨d1, d2⟩, _⟩ := hm
  rw [Iterator.eq_iff] at heq ⊢
  have he1 : (slice xs start stop step).end_.sub_iter = (xs.length : Int) := rfl
  have he2 : (slice xs start stop step).end_.current = stop := rfl
  rw [he1, he2] at heq ⊢
  refine ⟨?_, c1, c2, c3, c4⟩
  rcases heq with h | h
  · exact Or.inl (d1 h)
  · exact Or.inr (d2 h)

/-- C20 amended, witness: `slice([0..9], 2, 8, 2)`, 32-bit `DifferenceType`:
equal to `end()` after 3 increments, and still after 2 more. -/
theorem end_state_absorbing_witness :
    (fits 32 2 ∧ fits 32 8 ∧ (0 : Int) < 2 ∧ (8 : Int) + 2 < half_range 32
      ∧ (Iterator.incrN 32 true 3 ((slice [0, 1, 2, 3, 4, 5, 6, 7, 8, 9] 2 8 2).begin 32 true)).eq
          (slice [0, 1, 2, 3, 4, 5, 6, 7, 8, 9] 2 8 2).end_ = true)
    ∧ (Iterator.incrN 32 true (3 + 2)
          ((slice [0, 1, 2, 3, 4, 5, 6, 7, 8, 9] 2 8 2).begin 32 true)).eq
          (slice [0, 1, 2, 3, 4, 5, 6, 7, 8, 9] 2 8 2).end_ = true :=
  ⟨by decide,
    (end_state_absorbing 32 true [0, 1, 2, 3, 4, 5, 6, 7, 8, 9] 2 8 2 (by decide) (by decide)
      (by decide) (by decide) 3 2 (by decide)).1⟩

end iter
